import Mathlib

/-!
Mansion explorer (`mansao_explorer.c`).

A shallow embedding of the C program: a binary tree of named rooms, built either
from a fixed sample layout or interactively, and then walked interactively.

Conventions of the embedding.

* A `Node *` is a `Tree`: `Tree.null` is the NULL pointer, `Tree.node name left right`
  a pointer to a `struct Node`.  The field `char *name` may itself be NULL, hence
  `Option (List Char)`.
* Text is a `List Char`; one element stands for one C `char`.
* The console is explicit state: the characters still waiting on standard input and
  the chronological trace of what the program did (each `printf`, each `fgets`).
* `malloc` and `strdup` are assumed to succeed; `free_tree` has no observable effect
  and is not modelled.
* `build_sample_tree` links its nodes by assignments through pointers after it has
  created them; it is modelled on a heap of cells and its result is read back as a
  `Tree`.  Everywhere else a node is built together with its children.
* Loops and recursion that C does not bound take a fuel argument and return `none`
  when the fuel runs out.
-/

namespace MansaoExplorer

/-! ## Data model -/

/-- The constant `MAX_NAME`. -/
def MAX_NAME : Nat := 128

/-- A value of type `Node *`: NULL, or a node with its name and its two children. -/
inductive Tree where
  | null : Tree
  | node (name : Option (List Char)) (left right : Tree) : Tree
  deriving DecidableEq

/-- The pointer test `!p`. -/
def Tree.isNull : Tree → Bool
  | .null => true
  | .node _ _ _ => false

/-- The field `p->name` of a non-NULL pointer (`none` for NULL itself). -/
def Tree.name : Tree → Option (List Char)
  | .null => none
  | .node n _ _ => n

/-- The field `p->left`. -/
def Tree.left : Tree → Tree
  | .null => .null
  | .node _ l _ => l

/-- The field `p->right`. -/
def Tree.right : Tree → Tree
  | .null => .null
  | .node _ _ r => r

/-- Number of nodes of a tree. -/
def Tree.size : Tree → Nat
  | .null => 0
  | .node _ l r => 1 + l.size + r.size

/-! ## Console -/

/-- One observable action of the program on its console. -/
inductive Event where
  /-- One `printf` call with the text it wrote. -/
  | out (text : List Char) : Event
  /-- One `fgets` call with the characters it took from standard input
      (they are what the terminal echoes while the user types). -/
  | read (echo : List Char) : Event
  deriving DecidableEq

/-- The console: pending standard input and the trace of past actions. -/
structure Console where
  stdin : List Char
  trace : List Event
  deriving DecidableEq

/-- The call `printf(text)`. -/
def Console.printf (con : Console) (text : List Char) : Console :=
  { con with trace := con.trace ++ [Event.out text] }

/-- Text written by the program alone. -/
def stdoutOf : List Event → List Char
  | [] => []
  | Event.out t :: es => t ++ stdoutOf es
  | Event.read _ :: es => stdoutOf es

/-- Text seen on the terminal: program output interleaved with the echoed input. -/
def terminalOf : List Event → List Char
  | [] => []
  | Event.out t :: es => t ++ terminalOf es
  | Event.read t :: es => t ++ terminalOf es

/-- Number of reads from standard input. -/
def readsOf : List Event → Nat
  | [] => 0
  | Event.out _ :: es => readsOf es
  | Event.read _ :: es => 1 + readsOf es

/-- The NUL character that ends a C string. -/
def NUL : Char := Char.ofNat 0

/-- The C string held in a buffer: its characters up to the first NUL. -/
def cstr (buf : List Char) : List Char :=
  buf.takeWhile (fun c => c != NUL)

/-- Characters `fgets` stores when it may still store `n` of them: it stops after a
    newline, at end of input, or when the room is used up. -/
def fgetsChars : Nat → List Char → List Char × List Char
  | 0, inp => ([], inp)
  | _ + 1, [] => ([], [])
  | n + 1, c :: rest =>
    if c = '\n' then ([c], rest)
    else ((c :: (fgetsChars n rest).1), (fgetsChars n rest).2)

/-- The call `fgets(buf, size, stdin)`: `none` is the NULL result at end of input,
    otherwise the characters stored and the input left. -/
def fgets (size : Nat) (inp : List Char) : Option (List Char × List Char) :=
  match inp with
  | [] => none
  | _ :: _ => some (fgetsChars (size - 1) inp)

/-- `strip_newline`: drops the last character of the string when it is a newline. -/
def strip_newline (s : List Char) : List Char :=
  if s.length = 0 then s
  else if s.getLast? = some '\n' then s.dropLast else s

/-- `read_line(buf, size)`: the string left in `buf` and the console afterwards. -/
def read_line (size : Nat) (con : Console) : List Char × Console :=
  match fgets size con.stdin with
  | none => ([], { con with trace := con.trace ++ [Event.read []] })
  | some (got, rest) =>
    (strip_newline (cstr got), { stdin := rest, trace := con.trace ++ [Event.read got] })

/-! ## Tree builders -/

/-- `create_node(name)`: a fresh node without children. -/
def create_node (name : Option (List Char)) : Tree :=
  Tree.node name Tree.null Tree.null

/-- A `struct Node` in memory: the children are addresses, `none` for NULL. -/
structure Cell where
  name : Option (List Char)
  left : Option Nat
  right : Option Nat
  deriving DecidableEq

/-- The heap: the cells in order of allocation, the address of a cell being its
    position. -/
def Heap : Type := List Cell

/-- `create_node(name)` on the heap: the address of the fresh cell, whose children are
    NULL, and the heap that holds it. -/
def Heap.create_node (h : Heap) (name : Option (List Char)) : Nat × Heap :=
  (List.length h, List.append h [⟨name, none, none⟩])

/-- The assignment `p->left = q`. -/
def Heap.setLeft (h : Heap) (p : Nat) (q : Option Nat) : Heap :=
  match List.get? h p with
  | none => h
  | some c => List.set h p { c with left := q }

/-- The assignment `p->right = q`. -/
def Heap.setRight (h : Heap) (p : Nat) (q : Option Nat) : Heap :=
  match List.get? h p with
  | none => h
  | some c => List.set h p { c with right := q }

/-- The tree a pointer stands for: the cell it points to and, through the fields of
    that cell, the trees of its children, down to the given depth. -/
def Heap.treeAt (h : Heap) : Nat → Option Nat → Tree
  | 0, _ => Tree.null
  | _ + 1, none => Tree.null
  | d + 1, some p =>
    match List.get? h p with
    | none => Tree.null
    | some c => Tree.node c.name (h.treeAt d c.left) (h.treeAt d c.right)

/-- The body of `build_sample_tree()` statement by statement, on the heap `h0`: seven
    `create_node` calls, then the six assignments that link the nodes, parents first.
    The result is the pointer `entrada` and the heap. -/
def build_sample_heap (h0 : Heap) : Nat × Heap :=
  let entrada := h0.create_node (some "Entrada".toList)
  let salavao := entrada.2.create_node (some "Sala de Estar".toList)
  let cozinha := salavao.2.create_node (some "Cozinha".toList)
  let biblioteca := cozinha.2.create_node (some "Biblioteca".toList)
  let jardim := biblioteca.2.create_node (some "Jardim".toList)
  let sotao := jardim.2.create_node (some "Sotao".toList)
  let quarto := sotao.2.create_node (some "Quarto Principal".toList)
  let h1 := quarto.2.setLeft entrada.1 (some salavao.1)
  let h2 := h1.setRight entrada.1 (some cozinha.1)
  let h3 := h2.setLeft salavao.1 (some biblioteca.1)
  let h4 := h3.setRight salavao.1 (some jardim.1)
  let h5 := h4.setLeft cozinha.1 (some sotao.1)
  let h6 := h5.setRight cozinha.1 (some quarto.1)
  (entrada.1, h6)

/-- `build_sample_tree()`: the tree its result points to, built on a heap of its own. -/
def build_sample_tree : Tree :=
  (build_sample_heap []).2.treeAt (List.length (build_sample_heap []).2)
    (some (build_sample_heap []).1)

/-- The test `strlen(buf) > 0 && (buf[0]=='s' || buf[0]=='S')`. -/
def isYes (buf : List Char) : Bool :=
  match buf with
  | [] => false
  | c :: _ => c == 's' || c == 'S'

/-- `build_manual_subtree(depth)`; the fuel bounds the number of nested calls. -/
def build_manual_subtree : Nat → Nat → Console → Option (Tree × Console)
  | 0, _, _ => none
  | fuel + 1, depth, con =>
    let con1 := con.printf
      "Digite o nome do cômodo (ou ENTER para nenhum nó nesta posição): ".toList
    let r1 := read_line MAX_NAME con1
    if r1.1.length = 0 then some (Tree.null, r1.2)
    else
      let name := r1.1
      let con2 := r1.2.printf
        ("Criar cômodo à esquerda de '".toList ++ name ++ "'? (s/n): ".toList)
      let r2 := read_line MAX_NAME con2
      let leftRes : Option (Tree × Console) :=
        if isYes r2.1 then build_manual_subtree fuel (depth + 1) r2.2
        else some (Tree.null, r2.2)
      match leftRes with
      | none => none
      | some (left, con3) =>
        let con4 := con3.printf
          ("Criar cômodo à direita de '".toList ++ name ++ "'? (s/n): ".toList)
        let r3 := read_line MAX_NAME con4
        let rightRes : Option (Tree × Console) :=
          if isYes r3.1 then build_manual_subtree fuel (depth + 1) r3.2
          else some (Tree.null, r3.2)
        match rightRes with
        | none => none
        | some (right, con5) => some (Tree.node (some name) left right, con5)

/-! ## Explorer -/

/-- How a run of `explore` ended. -/
inductive Exit where
  /-- The root was NULL: nothing to explore. -/
  | empty : Exit
  /-- The `break` at a node without children. -/
  | leaf : Exit
  /-- The `break` after the choice `q`. -/
  | quit : Exit
  /-- The loop condition `cur` failed. -/
  | nullCur : Exit
  deriving DecidableEq

/-- Outcome of one pass through the body of the `while` loop. -/
inductive Step where
  /-- The body ran to its end or hit `continue`; `cur` holds the given pointer. -/
  | next (cur : Tree) (con : Console) : Step
  /-- The body hit `break`. -/
  | stop (how : Exit) (con : Console) : Step
  deriving DecidableEq

/-- What `printf("%s", p)` writes; for a NULL pointer glibc writes `(null)`. -/
def showStr : Option (List Char) → List Char
  | some s => s
  | none => "(null)".toList

/-- The expression `cur->name ? cur->name : "(sem nome)"`. -/
def roomName : Option (List Char) → List Char
  | some s => s
  | none => "(sem nome)".toList

/-- The line listing the moves open at a node with children `left` and `right`. -/
def printOptions (left right : Tree) (con : Console) : Console :=
  let con1 := con.printf "Opções disponíveis:".toList
  let con2 := if left.isNull then con1
    else con1.printf (" [l] Ir para a esquerda -> ".toList ++ showStr left.name)
  let con3 := if right.isNull then con2
    else con2.printf (" [r] Ir para a direita -> ".toList ++ showStr right.name)
  con3.printf " [q] Sair\n".toList

/-- The part of the loop body that follows a non-empty answer `c :: _`. -/
def choose (c : Char) (cur left right : Tree) (con : Console) : Step :=
  if c.toLower = 'q' then
    Step.stop Exit.quit (con.printf "Saindo da exploração...\n".toList)
  else if c.toLower = 'l' then
    if left.isNull then
      Step.next cur (con.printf "Não existe caminho à esquerda. Tente outra opção.\n".toList)
    else Step.next left con
  else if c.toLower = 'r' then
    if right.isNull then
      Step.next cur (con.printf "Não existe caminho à direita. Tente outra opção.\n".toList)
    else Step.next right con
  else
    Step.next cur (con.printf "Opção inválida. Use 'l', 'r' ou 'q'.\n".toList)

/-- The body of the `while (cur)` loop of `explore`, for a non-NULL `cur`
    with the given fields. -/
def explore_body (name : Option (List Char)) (left right : Tree) (con : Console) : Step :=
  let cur := Tree.node name left right
  let con1 := con.printf ("Você está em: ".toList ++ roomName name ++ "\n".toList)
  if left.isNull && right.isNull then
    Step.stop Exit.leaf
      (con1.printf "\nVocê alcançou um cômodo-folha. Fim do caminho.\n".toList)
  else
    let con2 := printOptions left right con1
    let con3 := con2.printf "Escolha (l/r/q): ".toList
    let r := read_line 16 con3
    match r.1 with
    | [] => Step.next cur (r.2.printf "Entrada vazia. Tente novamente.\n".toList)
    | c :: _ => choose c cur left right r.2

/-- Result of a finished run of the loop, or of `explore`. -/
structure Run where
  /-- How the run ended. -/
  exit : Exit
  /-- The pointer `cur` when the loop was left. -/
  final : Tree
  /-- The successive values of `cur`, one per pass through the loop body. -/
  visited : List Tree
  /-- The console afterwards. -/
  con : Console
  deriving DecidableEq

/-- The loop `while (cur) { ... }` of `explore`; the fuel bounds the number of passes. -/
def explore_loop : Nat → Tree → Console → Option Run
  | 0, _, _ => none
  | _ + 1, Tree.null, con => some ⟨Exit.nullCur, Tree.null, [], con⟩
  | fuel + 1, Tree.node name left right, con =>
    match explore_body name left right con with
    | Step.stop how con1 => some ⟨how, Tree.node name left right, [Tree.node name left right], con1⟩
    | Step.next cur1 con1 =>
      match explore_loop fuel cur1 con1 with
      | none => none
      | some run => some { run with visited := Tree.node name left right :: run.visited }

/-- `explore(root)`. -/
def explore (fuel : Nat) (root : Tree) (con : Console) : Option Run :=
  match root with
  | Tree.null =>
    some ⟨Exit.empty, Tree.null, [], con.printf "Arvore vazia. Nada para explorar.\n".toList⟩
  | Tree.node _ _ _ =>
    let con1 := con.printf "\n--- Exploração da mansão iniciada ---\n".toList
    match explore_loop fuel root con1 with
    | none => none
    | some run =>
      some { run with con := run.con.printf "--- Exploração finalizada ---\n\n".toList }

/-- `main()`: the console at exit, with the tree that was explored and the run. -/
def main (fuel : Nat) (con : Console) : Option (Tree × Run) :=
  let con1 := con.printf "Construtor de mansão (árvore binária de cômodos)\n".toList
  let con2 := con1.printf
    "Deseja construir a árvore manualmente? (s/n) [n = árvore de exemplo]: ".toList
  let r := read_line 8 con2
  let built : Option (Tree × Console) :=
    if isYes r.1 then
      build_manual_subtree fuel 0 (r.2.printf
        ("\nIniciando construção manual da árvore. Para não criar um nó, ".toList ++
          "pressione ENTER quando solicitado para o nome.\n".toList))
    else some (build_sample_tree, r.2.printf "Árvore de exemplo criada.\n".toList)
  match built with
  | none => none
  | some (root, con3) =>
    match explore fuel root con3 with
    | none => none
    | some run => some (root, run)

/-- Standard input made of the given lines, each ended by a newline. -/
def stdinOfLines : List (List Char) → List Char
  | [] => []
  | l :: ls => l ++ '\n' :: stdinOfLines ls

/-- A console at program start. -/
def Console.start (inp : List Char) : Console := ⟨inp, []⟩


/-! ## Vocabulary of the statements -/

/-- The line that announces the current room. -/
def roomLine (name : Option (List Char)) : List Char :=
  "Você está em: ".toList ++ roomName name ++ "\n".toList

/-- The message printed at a node without children. -/
def leafMessage : List Char := "\nVocê alcançou um cômodo-folha. Fim do caminho.\n".toList

/-- The message printed when the root is NULL. -/
def emptyTreeMessage : List Char := "Arvore vazia. Nada para explorar.\n".toList

/-- The message printed after the choice `q`. -/
def quitMessage : List Char := "Saindo da exploração...\n".toList

/-- The message printed after an empty answer. -/
def emptyInputMessage : List Char := "Entrada vazia. Tente novamente.\n".toList

/-- The message printed after an answer that is none of `l`, `r`, `q`. -/
def invalidMessage : List Char := "Opção inválida. Use 'l', 'r' ou 'q'.\n".toList

/-- The message printed when there is no left child to go to. -/
def noLeftMessage : List Char :=
  "Não existe caminho à esquerda. Tente outra opção.\n".toList

/-- The message printed when there is no right child to go to. -/
def noRightMessage : List Char :=
  "Não existe caminho à direita. Tente outra opção.\n".toList

/-- A node without any child. -/
def leafNode (name : String) : Tree := Tree.node (some name.toList) Tree.null Tree.null

/-- The prompt for a room name in a manual build. -/
def namePrompt : List Char :=
  "Digite o nome do cômodo (ou ENTER para nenhum nó nesta posição): ".toList

/-- The console of one pass of the loop at the moment it is about to read the choice:
    the room line, the options line and the prompt have been printed. -/
def beforeRead (name : Option (List Char)) (left right : Tree) (con : Console) : Console :=
  (printOptions left right (con.printf (roomLine name))).printf "Escolha (l/r/q): ".toList

/-- The console of one pass of the loop right after it has read the choice: the
    read took from standard input what `fgets` takes with a buffer of 16. -/
def afterRead (name : Option (List Char)) (left right : Tree) (con : Console) : Console :=
  ⟨(fgetsChars 15 con.stdin).2,
    (beforeRead name left right con).trace ++ [Event.read (fgetsChars 15 con.stdin).1]⟩

/-- What a pass at a node with the given fields prints before it reads: the room
    line, the options line and the prompt. -/
def shownAt (name : Option (List Char)) (left right : Tree) : List Event :=
  (beforeRead name left right ⟨[], []⟩).trace

/-- The loop going on at the node `cur` after a pass made at the node `prev`: the
    rest of the run, with `prev` recorded as visited first. -/
def thenLoop (fuel : Nat) (prev cur : Tree) (con : Console) : Option Run :=
  match explore_loop fuel cur con with
  | none => none
  | some run => some { run with visited := prev :: run.visited }

/-- A small tree for concrete checks: a room `A` whose only child, on the left, is
    the childless room `B`. -/
def roomA : Tree := Tree.node (some "A".toList) (leafNode "B") Tree.null


/-- Splits a text at its newlines. -/
def splitLines : List Char → List (List Char)
  | [] => [[]]
  | c :: cs =>
    if c = '\n' then [] :: splitLines cs
    else
      match splitLines cs with
      | [] => [[c]]
      | l :: ls => (c :: l) :: ls

/-- The lines of a text that are not blank. -/
def nonBlankLines (text : List Char) : List (List Char) :=
  (splitLines text).filter (fun l => !l.isEmpty)

/-- The example run shown in the README, line by line. -/
def readmeExample : List String :=
  [ "Construtor de mansão (árvore binária de cômodos)",
    "Deseja construir a árvore manualmente? (s/n) [n = árvore de exemplo]: n",
    "Árvore de exemplo criada.",
    "",
    "--- Exploração da mansão iniciada ---",
    "Você está em: Entrada",
    "Opções disponíveis: [l] Ir para a esquerda -> Sala de Estar [r] Ir para a direita -> Cozinha [q] Sair",
    "Escolha (l/r/q): l",
    "",
    "Você está em: Sala de Estar",
    "Opções disponíveis: [l] Ir para a esquerda -> Biblioteca [r] Ir para a direita -> Jardim [q] Sair",
    "Escolha (l/r/q): r",
    "",
    "Você está em: Jardim",
    "Você alcançou um cômodo-folha. Fim do caminho.",
    "--- Exploração finalizada ---" ]

/-- The text made of the given lines, every line ended by a newline. -/
def textOfLines (lines : List String) : List Char :=
  stdinOfLines (lines.map String.toList)

/-- The README example as one text. -/
def readmeText : List Char := textOfLines readmeExample

/-- What the terminal shows for the input lines `n`, `l`, `r`, line by line. -/
def sampleRunLines : List String :=
  [ "Construtor de mansão (árvore binária de cômodos)",
    "Deseja construir a árvore manualmente? (s/n) [n = árvore de exemplo]: n",
    "Árvore de exemplo criada.",
    "",
    "--- Exploração da mansão iniciada ---",
    "Você está em: Entrada",
    "Opções disponíveis: [l] Ir para a esquerda -> Sala de Estar [r] Ir para a direita -> Cozinha [q] Sair",
    "Escolha (l/r/q): l",
    "Você está em: Sala de Estar",
    "Opções disponíveis: [l] Ir para a esquerda -> Biblioteca [r] Ir para a direita -> Jardim [q] Sair",
    "Escolha (l/r/q): r",
    "Você está em: Jardim",
    "",
    "Você alcançou um cômodo-folha. Fim do caminho.",
    "--- Exploração finalizada ---",
    "" ]

/-- The question about a left child of the room called `name`. -/
def leftQuestion (name : List Char) : List Char :=
  "Criar cômodo à esquerda de '".toList ++ name ++ "'? (s/n): ".toList

/-- The question about a right child of the room called `name`. -/
def rightQuestion (name : List Char) : List Char :=
  "Criar cômodo à direita de '".toList ++ name ++ "'? (s/n): ".toList

/-- One child in the stated procedure: ask, read one answer, and build the subtree
    with `build` if and only if the answer is yes; a child that is not built is
    absent. -/
def askChild (build : Console → Option (Tree × Console)) (question : List Char)
    (con : Console) : Option (Tree × Console) :=
  if isYes (read_line MAX_NAME (con.printf question)).1 then
    build (read_line MAX_NAME (con.printf question)).2
  else some (Tree.null, (read_line MAX_NAME (con.printf question)).2)

/-- The manual build as the specification states it: prompt for the name; an empty
    name gives no node; otherwise the node gets that name, its left child is asked for
    and built first, its right child after that.  The fuel bounds the nesting. -/
def manualProcedure : Nat → Console → Option (Tree × Console)
  | 0, _ => none
  | fuel + 1, con =>
    match (read_line MAX_NAME (con.printf namePrompt)).1 with
    | [] => some (Tree.null, (read_line MAX_NAME (con.printf namePrompt)).2)
    | c :: cs =>
      match askChild (fun k => manualProcedure fuel k) (leftQuestion (c :: cs))
          (read_line MAX_NAME (con.printf namePrompt)).2 with
      | none => none
      | some (left, afterLeft) =>
        match askChild (fun k => manualProcedure fuel k) (rightQuestion (c :: cs))
            afterLeft with
        | none => none
        | some (right, afterRight) =>
          some (Tree.node (some (c :: cs)) left right, afterRight)

/-- The console a pass of the loop ends with. -/
def Step.console : Step → Console
  | Step.next _ con => con
  | Step.stop _ con => con

/-- The first part of the options line. -/
def optionsHeader : List Char := "Opções disponíveis:".toList

/-- The entry of the options line for the move to the left, before the name of the
    room it leads to. -/
def leftEntry : List Char := " [l] Ir para a esquerda -> ".toList

/-- The entry of the options line for the move to the right, before the name of the
    room it leads to. -/
def rightEntry : List Char := " [r] Ir para a direita -> ".toList

/-- The entry of the options line for quitting, which ends the line. -/
def quitEntry : List Char := " [q] Sair\n".toList

/-- The prompt for a move. -/
def choicePrompt : List Char := "Escolha (l/r/q): ".toList

/-- The placeholder for a room without a name. -/
def placeholder : List Char := "(sem nome)".toList

/-- The read of the answer to the startup question, after the two lines `main` prints
    first: the answer and the console afterwards. -/
def modeRead (con : Console) : List Char × Console :=
  read_line 8
    ((con.printf "Construtor de mansão (árvore binária de cômodos)\n".toList).printf
      "Deseja construir a árvore manualmente? (s/n) [n = árvore de exemplo]: ".toList)

/-- The message that opens a manual build. -/
def manualModeMessage : List Char :=
  "\nIniciando construção manual da árvore. Para não criar um nó, ".toList ++
    "pressione ENTER quando solicitado para o nome.\n".toList

/-- The message printed when the sample tree is used. -/
def sampleModeMessage : List Char := "Árvore de exemplo criada.\n".toList

/-- The run of `main` in manual mode, from the console left by the startup read. -/
def manualMode (fuel : Nat) (con : Console) : Option (Tree × Run) :=
  match build_manual_subtree fuel 0 (con.printf manualModeMessage) with
  | none => none
  | some (root, con3) =>
    match explore fuel root con3 with
    | none => none
    | some run => some (root, run)

/-- The run of `main` in sample mode, from the console left by the startup read. -/
def sampleMode (fuel : Nat) (con : Console) : Option (Tree × Run) :=
  match explore fuel build_sample_tree (con.printf sampleModeMessage) with
  | none => none
  | some run => some (build_sample_tree, run)

/-- The height of a tree: the number of nodes on its longest path from the root. -/
def Tree.height : Tree → Nat
  | .null => 0
  | .node _ l r => 1 + max l.height r.height

/-- Every node of the tree has a name with the property `p`. -/
def Tree.allNames (p : Option (List Char) → Prop) : Tree → Prop
  | .null => True
  | .node n l r => p n ∧ l.allNames p ∧ r.allNames p

/-- A name that can be typed at the name prompt and read back: a C string (present,
    without NUL) that is not empty, has no newline and at most 126 characters. -/
def typableName : Option (List Char) → Prop
  | none => False
  | some s => s ≠ [] ∧ '\n' ∉ s ∧ NUL ∉ s ∧ s.length ≤ 126

/-- The input lines for one child: `n` when it is absent, otherwise `s` followed by
    the lines `enc` that encode it. -/
def childLines (t : Tree) (enc : List (List Char)) : List (List Char) :=
  if t.isNull then [['n']] else ['s'] :: enc

/-- The pre-order encoding of a tree as input lines: the name, the lines for the left
    child, the lines for the right child. -/
def encodeLines : Tree → List (List Char)
  | .null => []
  | .node name left right =>
    roomName name ::
      (childLines left (encodeLines left) ++ childLines right (encodeLines right))

/-- No line of the input has more than 126 characters, so that every line fits, with
    its newline, what one read into a buffer of `MAX_NAME` characters takes. -/
def shortLines (inp : List Char) : Prop :=
  ∀ l ∈ splitLines inp, l.length ≤ 126

/-- An input of one line of 255 characters: 127 times `a`, 127 times `s`, then `b`. -/
def longLine : List Char :=
  List.replicate 127 'a' ++ (List.replicate 127 's' ++ ['b', '\n'])

/-- The tree `t` has the node `s`: `s` is not NULL and is `t` itself or lies below it. -/
def Tree.hasNode : Tree → Tree → Prop
  | .null, _ => False
  | .node n l r, s => s = Tree.node n l r ∨ l.hasNode s ∨ r.hasNode s

/-- From the node `a` the explorer goes to its left or right child `b`, which exists. -/
def childStep (a b : Tree) : Prop :=
  b ≠ Tree.null ∧ (b = a.left ∨ b = a.right)

/-- From one pass to the next the explorer stays at `a` or goes to a child of `a`. -/
def stayOrStep (a b : Tree) : Prop :=
  b = a ∨ childStep a b

/-- Each node of the list is related to the next one. -/
def isWalk (rel : Tree → Tree → Prop) : List Tree → Prop
  | [] => True
  | a :: rest => (∀ b ∈ rest.head?, rel a b) ∧ isWalk rel rest

/-- The sequence of distinct nodes of a list of visits: a visit that repeats the node
    of the visit after it is left out. -/
def distinctNodes : List Tree → List Tree
  | [] => []
  | a :: rest => if rest.head? = some a then distinctNodes rest else a :: distinctNodes rest

/-- The node the explorer is at after the answer `answer` given at `cur`: the left
    child on `l`, the right child on `r`, when that child exists; otherwise `cur`. -/
def moveOn (cur : Tree) (answer : List Char) : Tree :=
  match answer with
  | [] => cur
  | c :: _ =>
    if c.toLower = 'l' then (if cur.left.isNull then cur else cur.left)
    else if c.toLower = 'r' then (if cur.right.isNull then cur else cur.right)
    else cur

/-- The node reached from `cur` by following, in order, the answers read in the
    trace. -/
def followReads (cur : Tree) : List Event → Tree
  | [] => cur
  | Event.out _ :: es => followReads cur es
  | Event.read got :: es => followReads (moveOn cur (strip_newline (cstr got))) es

/-- The node the explorer is at after a pass made at `cur`. -/
def Step.node : Step → Tree → Tree
  | Step.next cur1 _, _ => cur1
  | Step.stop _ _, cur => cur

/-- A name as the program gives it to a node: present, not empty and of at most 127
    characters. -/
def properName : Option (List Char) → Prop
  | none => False
  | some s => s ≠ [] ∧ s.length ≤ 127

/-! ## The sample tree and the documented runs -/

/-- The tree `build_sample_tree` returns, written out. -/
theorem build_sample_tree_eq :
    build_sample_tree =
      Tree.node (some "Entrada".toList)
        (Tree.node (some "Sala de Estar".toList) (leafNode "Biblioteca") (leafNode "Jardim"))
        (Tree.node (some "Cozinha".toList) (leafNode "Sotao") (leafNode "Quarto Principal")) := by
  rfl

/-- C1: on the sample tree the input lines `l`, `r` lead through Entrada, Sala de Estar
    and Jardim, in that order; the run ends with the leaf exit at the childless node
    Jardim, the leaf message is printed, exactly two reads are made and whatever
    follows the two lines on standard input is left unread. -/
theorem sample_left_right_reaches_jardim (fuel : Nat) (rest : List Char) :
    ∃ run : Run,
      explore (fuel + 3) build_sample_tree
          (Console.start (stdinOfLines ["l".toList, "r".toList] ++ rest)) = some run ∧
      run.exit = Exit.leaf ∧
      run.visited.map Tree.name =
        [some "Entrada".toList, some "Sala de Estar".toList, some "Jardim".toList] ∧
      run.final = Tree.node (some "Jardim".toList) Tree.null Tree.null ∧
      run.visited.getLast? = some run.final ∧
      Event.out leafMessage ∈ run.con.trace ∧
      readsOf run.con.trace = 2 ∧
      run.con.stdin = rest := by
  rw [build_sample_tree_eq]
  simp [explore, explore_loop, leafNode, Console.start, explore_body,
    Tree.isNull, read_line, printOptions, Console.printf, fgets, fgetsChars, cstr,
    strip_newline, NUL, choose, Tree.name, showStr, roomName, stdinOfLines, leafMessage,
    readsOf]

/-- C2: on the sample tree the input lines `r`, `r` lead to the node Quarto Principal,
    which has neither a left nor a right child, and the run ends with the leaf exit. -/
theorem sample_right_right_reaches_quarto (fuel : Nat) (rest : List Char) :
    ∃ run : Run,
      explore (fuel + 3) build_sample_tree
          (Console.start (stdinOfLines ["r".toList, "r".toList] ++ rest)) = some run ∧
      run.exit = Exit.leaf ∧
      run.final.name = some "Quarto Principal".toList ∧
      run.final.left = Tree.null ∧
      run.final.right = Tree.null ∧
      run.visited.map Tree.name =
        [some "Entrada".toList, some "Cozinha".toList, some "Quarto Principal".toList] ∧
      Event.out leafMessage ∈ run.con.trace ∧
      run.con.stdin = rest := by
  rw [build_sample_tree_eq]
  simp [explore, explore_loop, leafNode, Console.start, explore_body,
    Tree.isNull, read_line, printOptions, Console.printf, fgets, fgetsChars, cstr,
    strip_newline, NUL, choose, Tree.name, Tree.left, Tree.right, showStr, roomName,
    stdinOfLines, leafMessage]

/-- C3: for the input lines `n`, `l`, `r` the terminal shows the lines of
    `sampleRunLines`.  They are the non-blank lines of the README example in the same
    order, but the text is not the README example: the blank lines stand elsewhere. -/
theorem sample_run_transcript_differs_from_readme :
    ∃ root run,
      main 3 (Console.start (stdinOfLines ["n".toList, "l".toList, "r".toList])) =
        some (root, run) ∧
      root = build_sample_tree ∧
      run.exit = Exit.leaf ∧
      terminalOf run.con.trace = textOfLines sampleRunLines ∧
      terminalOf run.con.trace ≠ readmeText ∧
      nonBlankLines (terminalOf run.con.trace) = nonBlankLines readmeText := by
  refine ⟨build_sample_tree, ?_⟩
  simp only [main]
  rw [build_sample_tree_eq]
  set_option maxRecDepth 100000 in
  simp [isYes, explore, explore_loop, leafNode, Console.start,
    explore_body, Tree.isNull, read_line, printOptions, Console.printf, fgets, fgetsChars,
    cstr, strip_newline, NUL, choose, Tree.name, showStr, roomName, stdinOfLines,
    terminalOf, splitLines, sampleRunLines, readmeText, readmeExample, nonBlankLines,
    textOfLines]

/-- C10: `build_sample_tree` takes no console, so it reads no input.  It allocates
    exactly seven cells and its result is the tree with root Entrada, left child Sala de
    Estar (children Biblioteca and Jardim) and right child Cozinha (children Sotao and
    Quarto Principal), the four grandchildren being childless.  A second invocation, on
    the heap the first one left, allocates seven further cells and returns a pointer
    to a tree with the same names and the same shape, and leaves the first tree as it
    was. -/
theorem build_sample_tree_shape :
    build_sample_tree =
      Tree.node (some "Entrada".toList)
        (Tree.node (some "Sala de Estar".toList) (leafNode "Biblioteca") (leafNode "Jardim"))
        (Tree.node (some "Cozinha".toList) (leafNode "Sotao") (leafNode "Quarto Principal")) ∧
    build_sample_tree.size = 7 ∧
    List.length (build_sample_heap []).2 = 7 ∧
    List.length (build_sample_heap (build_sample_heap []).2).2 = 14 ∧
    (build_sample_heap (build_sample_heap []).2).2.treeAt 14
        (some (build_sample_heap (build_sample_heap []).2).1) = build_sample_tree ∧
    (build_sample_heap (build_sample_heap []).2).2.treeAt 14
        (some (build_sample_heap []).1) = build_sample_tree ∧
    (build_sample_heap (build_sample_heap []).2).1 ≠ (build_sample_heap []).1 := by
  refine ⟨build_sample_tree_eq, ?_, ?_, ?_, ?_, ?_, ?_⟩
  · rw [build_sample_tree_eq]
    rfl
  · rfl
  · rfl
  · rw [build_sample_tree_eq]
    rfl
  · rw [build_sample_tree_eq]
    rfl
  · decide

/-! ## Reading a line -/

theorem readsOf_append (xs ys : List Event) :
    readsOf (xs ++ ys) = readsOf xs + readsOf ys := by
  induction xs with
  | nil => simp [readsOf]
  | cons e es ih =>
    cases e with
    | out t => simpa [readsOf] using ih
    | read t => simp [readsOf, ih, Nat.add_assoc]

theorem fgetsChars_cons (n : Nat) (c : Char) (rest : List Char) (hc : c ≠ '\n') :
    fgetsChars (n + 1) (c :: rest) = (c :: (fgetsChars n rest).1, (fgetsChars n rest).2) := by
  simp [fgetsChars, hc]

theorem strip_newline_cons (c : Char) (xs : List Char) (hc : c ≠ '\n') :
    ∃ tl, strip_newline (c :: xs) = c :: tl := by
  unfold strip_newline
  cases xs with
  | nil => simp [hc]
  | cons x xs =>
    by_cases h : (c :: x :: xs).getLast? = some '\n'
    · refine ⟨(x :: xs).dropLast, ?_⟩
      rw [if_neg (by simp), if_pos h]
      rfl
    · refine ⟨x :: xs, ?_⟩
      rw [if_neg (by simp), if_neg h]

/-- A line whose first character is neither a newline nor NUL is read as a string
    that starts with that character. -/
theorem read_line_first_char (n : Nat) (con : Console) (c : Char) (rest : List Char)
    (hin : con.stdin = c :: rest) (hnl : c ≠ '\n') (hnul : c ≠ NUL) :
    ∃ tl, read_line (n + 2) con =
      (c :: tl, ⟨(fgetsChars (n + 1) con.stdin).2,
        con.trace ++ [Event.read (fgetsChars (n + 1) con.stdin).1]⟩) := by
  have hcs : cstr (c :: (fgetsChars n rest).1) =
      c :: (fgetsChars n rest).1.takeWhile (fun x => x != NUL) := by
    have hb : (c != NUL) = true := by simp [hnul]
    simp [cstr, List.takeWhile, hb]
  obtain ⟨tl, htl⟩ :=
    strip_newline_cons c ((fgetsChars n rest).1.takeWhile (fun x => x != NUL)) hnl
  refine ⟨tl, ?_⟩
  simp [read_line, fgets, hin, fgetsChars_cons n c rest hnl, hcs, htl]

/-- An empty line is read as the empty string and only its newline is consumed. -/
theorem read_line_empty_line (n : Nat) (con : Console) (rest : List Char)
    (hin : con.stdin = '\n' :: rest) :
    read_line (n + 2) con = ([], ⟨rest, con.trace ++ [Event.read ['\n']]⟩) := by
  simp [read_line, fgets, hin, fgetsChars, cstr, strip_newline, List.takeWhile, NUL]

/-! ## One pass of the exploration loop -/

theorem isNull_eq_true (t : Tree) : t.isNull = true ↔ t = Tree.null := by
  cases t <;> simp [Tree.isNull]

theorem not_leaf_of_child (left right : Tree)
    (hkid : left ≠ Tree.null ∨ right ≠ Tree.null) :
    (left.isNull && right.isNull) = false := by
  cases left <;> cases right <;> simp_all [Tree.isNull]

/-- What a pass prints before it reads does not depend on the console. -/
theorem beforeRead_trace (name : Option (List Char)) (left right : Tree) (con : Console) :
    (beforeRead name left right con).trace =
      con.trace ++ (beforeRead name left right ⟨[], []⟩).trace := by
  cases left <;> cases right <;>
    simp [beforeRead, printOptions, Console.printf, Tree.isNull]

theorem beforeRead_stdin (name : Option (List Char)) (left right : Tree) (con : Console) :
    (beforeRead name left right con).stdin = con.stdin := by
  cases left <;> cases right <;>
    simp [beforeRead, printOptions, Console.printf, Tree.isNull]

theorem beforeRead_reads (name : Option (List Char)) (left right : Tree) (con : Console) :
    readsOf (beforeRead name left right con).trace = readsOf con.trace := by
  cases left <;> cases right <;>
    simp [beforeRead, printOptions, Console.printf, Tree.isNull, readsOf_append, readsOf]

/-- At a node with a child the pass prints room, options and prompt, reads one line
    and dispatches on it. -/
theorem explore_body_of_child (name : Option (List Char)) (left right : Tree) (con : Console)
    (hkid : left ≠ Tree.null ∨ right ≠ Tree.null) :
    explore_body name left right con =
      match (read_line 16 (beforeRead name left right con)).1 with
      | [] => Step.next (Tree.node name left right)
          ((read_line 16 (beforeRead name left right con)).2.printf emptyInputMessage)
      | c :: _ => choose c (Tree.node name left right) left right
          (read_line 16 (beforeRead name left right con)).2 := by
  have h := not_leaf_of_child left right hkid
  simp only [explore_body, beforeRead, roomLine, emptyInputMessage]
  rw [h]
  simp

/-- The four ways the dispatch on a non-empty answer can end. -/
theorem choose_cases (c : Char) (cur left right : Tree) (con : Console) :
    choose c cur left right con = Step.stop Exit.quit (con.printf quitMessage) ∨
    (∃ con1, choose c cur left right con = Step.next cur con1) ∨
    (left ≠ Tree.null ∧ choose c cur left right con = Step.next left con) ∨
    (right ≠ Tree.null ∧ choose c cur left right con = Step.next right con) := by
  unfold choose
  split_ifs with hq hl hln hr hrn
  · exact Or.inl rfl
  · exact Or.inr (Or.inl ⟨_, rfl⟩)
  · refine Or.inr (Or.inr (Or.inl ⟨?_, rfl⟩))
    intro h
    exact hln (by simp [h, Tree.isNull])
  · exact Or.inr (Or.inl ⟨_, rfl⟩)
  · refine Or.inr (Or.inr (Or.inr ⟨?_, rfl⟩))
    intro h
    exact hrn (by simp [h, Tree.isNull])
  · exact Or.inr (Or.inl ⟨_, rfl⟩)

/-- A pass at a childless node stops with the leaf exit and reads nothing. -/
theorem explore_body_leaf (name : Option (List Char)) (con : Console) :
    explore_body name Tree.null Tree.null con =
      Step.stop Exit.leaf ((con.printf (roomLine name)).printf leafMessage) := by
  simp [explore_body, Tree.isNull, roomLine, leafMessage]

/-- A pass that stops does so with the leaf exit at a childless node, or with the
    quit exit at a node that has a child. -/
theorem explore_body_stop (name : Option (List Char)) (left right : Tree) (con con1 : Console)
    (how : Exit) (h : explore_body name left right con = Step.stop how con1) :
    (how = Exit.leaf ∧ left = Tree.null ∧ right = Tree.null) ∨
    (how = Exit.quit ∧ (left ≠ Tree.null ∨ right ≠ Tree.null)) := by
  by_cases hkid : left ≠ Tree.null ∨ right ≠ Tree.null
  · right
    refine ⟨?_, hkid⟩
    rw [explore_body_of_child name left right con hkid] at h
    split at h
    · cases h
    · rename_i c tl _
      rcases choose_cases c (Tree.node name left right) left right
          (read_line 16 (beforeRead name left right con)).2 with hc | ⟨_, hc⟩ | ⟨_, hc⟩ | ⟨_, hc⟩
      all_goals rw [hc] at h
      · cases h
        rfl
      all_goals cases h
  · left
    have hl : left = Tree.null := by
      by_contra hne
      exact hkid (Or.inl hne)
    have hr : right = Tree.null := by
      by_contra hne
      exact hkid (Or.inr hne)
    subst hl
    subst hr
    rw [explore_body_leaf] at h
    cases h
    exact ⟨rfl, rfl, rfl⟩

/-- A pass that goes on does so at a node with a child, and stays there or moves to
    an existing child. -/
theorem explore_body_next (name : Option (List Char)) (left right cur1 : Tree)
    (con con1 : Console) (h : explore_body name left right con = Step.next cur1 con1) :
    (left ≠ Tree.null ∨ right ≠ Tree.null) ∧
    (cur1 = Tree.node name left right ∨ (cur1 = left ∧ left ≠ Tree.null) ∨
      (cur1 = right ∧ right ≠ Tree.null)) := by
  by_cases hkid : left ≠ Tree.null ∨ right ≠ Tree.null
  · refine ⟨hkid, ?_⟩
    rw [explore_body_of_child name left right con hkid] at h
    split at h
    · cases h
      exact Or.inl rfl
    · rename_i c tl _
      rcases choose_cases c (Tree.node name left right) left right
          (read_line 16 (beforeRead name left right con)).2 with hc | ⟨_, hc⟩ | ⟨hn, hc⟩ | ⟨hn, hc⟩
      all_goals rw [hc] at h
      · cases h
      · cases h
        exact Or.inl rfl
      · cases h
        exact Or.inr (Or.inl ⟨rfl, hn⟩)
      · cases h
        exact Or.inr (Or.inr ⟨rfl, hn⟩)
  · exfalso
    have hl : left = Tree.null := by
      by_contra hne
      exact hkid (Or.inl hne)
    have hr : right = Tree.null := by
      by_contra hne
      exact hkid (Or.inr hne)
    subst hl
    subst hr
    rw [explore_body_leaf] at h
    cases h

/-- In a finished run of the loop every node passed on the way has a child, and a run
    that ends at a childless node ends with the leaf exit. -/
theorem explore_loop_leaf_exit (fuel : Nat) :
    ∀ (root : Tree) (con : Console) (run : Run), explore_loop fuel root con = some run →
      (∀ t ∈ run.visited.dropLast, t.left ≠ Tree.null ∨ t.right ≠ Tree.null) ∧
      (run.final ≠ Tree.null → run.final.left = Tree.null → run.final.right = Tree.null →
        run.exit = Exit.leaf) := by
  induction fuel with
  | zero =>
    intro root con run h
    simp [explore_loop] at h
  | succ n ih =>
    intro root con run h
    cases root with
    | null =>
      simp [explore_loop] at h
      subst h
      simp
    | node name left right =>
      simp only [explore_loop] at h
      split at h
      · rename_i how con1 hb
        cases h
        refine ⟨by simp, ?_⟩
        intro _ hl hr
        rcases explore_body_stop name left right con con1 how hb with ⟨hh, _, _⟩ | ⟨_, hk⟩
        · exact hh
        · simp only [Tree.left, Tree.right] at hl hr
          rcases hk with hk | hk
          · exact absurd hl hk
          · exact absurd hr hk
      · rename_i cur1 con1 hb
        split at h
        · cases h
        · rename_i run1 hrun
          cases h
          obtain ⟨hv, hf⟩ := ih cur1 con1 run1 hrun
          refine ⟨?_, hf⟩
          intro t ht
          have hkid := (explore_body_next name left right cur1 con con1 hb).1
          cases hvis : run1.visited with
          | nil =>
            simp [hvis] at ht
          | cons v vs =>
            simp only [hvis, List.dropLast_cons₂, List.mem_cons] at ht
            rcases ht with ht | ht
            · subst ht
              exact hkid
            · exact hv t (by simpa [hvis] using ht)

/-! ## The explorer at a leaf, at an absent root, and on each kind of answer -/

/-- C4: at a node with neither a left nor a right child, whatever the console (its
    history and the input still pending), a pass of the loop prints the room line and
    the leaf message and stops with the leaf exit at that node; nothing is read and the
    pending input is untouched.  Since the loop state is the pair of current node and
    console, this holds on every path; in particular no finished run ever goes on past
    a childless node, and a run that ends at one ends with the leaf exit. -/
theorem leaf_ends_exploration (name : Option (List Char)) (con : Console) (fuel : Nat) :
    explore_body name Tree.null Tree.null con =
      Step.stop Exit.leaf ((con.printf (roomLine name)).printf leafMessage) ∧
    explore_loop (fuel + 1) (Tree.node name Tree.null Tree.null) con =
      some ⟨Exit.leaf, Tree.node name Tree.null Tree.null,
        [Tree.node name Tree.null Tree.null],
        ⟨con.stdin, con.trace ++ [Event.out (roomLine name), Event.out leafMessage]⟩⟩ ∧
    readsOf (con.trace ++ [Event.out (roomLine name), Event.out leafMessage]) =
      readsOf con.trace ∧
    (∀ (n : Nat) (root : Tree) (con0 : Console) (run : Run),
      explore_loop n root con0 = some run →
        (∀ t ∈ run.visited.dropLast, t.left ≠ Tree.null ∨ t.right ≠ Tree.null) ∧
        (run.final ≠ Tree.null → run.final.left = Tree.null →
          run.final.right = Tree.null → run.exit = Exit.leaf)) := by
  refine ⟨explore_body_leaf name con, ?_, ?_, fun n => explore_loop_leaf_exit n⟩
  · simp [explore_loop, explore_body_leaf, Console.printf]
  · simp [readsOf_append, readsOf]

/-- Whatever the input, a read changes the console as `fgets` does: it takes the
    characters `fgetsChars` takes and records them. -/
theorem read_line_console (n : Nat) (con : Console) :
    (read_line (n + 2) con).2 =
      ⟨(fgetsChars (n + 1) con.stdin).2,
        con.trace ++ [Event.read (fgetsChars (n + 1) con.stdin).1]⟩ := by
  cases con with
  | mk inp tr =>
    cases inp with
    | nil => simp [read_line, fgets, fgetsChars]
    | cons c rest => simp [read_line, fgets]

theorem afterRead_eq (name : Option (List Char)) (left right : Tree) (con : Console) :
    (read_line 16 (beforeRead name left right con)).2 = afterRead name left right con := by
  rw [read_line_console 14, beforeRead_stdin]
  rfl

theorem afterRead_reads (name : Option (List Char)) (left right : Tree) (con : Console) :
    readsOf (afterRead name left right con).trace = readsOf con.trace + 1 := by
  simp [afterRead, readsOf_append, readsOf, beforeRead_reads]

/-- A pass that goes on hands the loop over to the next pass. -/
theorem explore_loop_next (fuel : Nat) (name : Option (List Char)) (left right cur1 : Tree)
    (con con1 : Console) (h : explore_body name left right con = Step.next cur1 con1) :
    explore_loop (fuel + 1) (Tree.node name left right) con =
      thenLoop fuel (Tree.node name left right) cur1 con1 := by
  simp [explore_loop, h, thenLoop]

/-- A pass that stops ends the loop. -/
theorem explore_loop_stop (fuel : Nat) (name : Option (List Char)) (left right : Tree)
    (con con1 : Console) (how : Exit)
    (h : explore_body name left right con = Step.stop how con1) :
    explore_loop (fuel + 1) (Tree.node name left right) con =
      some ⟨how, Tree.node name left right, [Tree.node name left right], con1⟩ := by
  simp [explore_loop, h]

/-- A pass at a node with a child, on an answer that starts with a character that is
    neither a newline nor NUL, dispatches on that character. -/
theorem explore_body_choice (name : Option (List Char)) (left right : Tree) (con : Console)
    (c : Char) (rest : List Char) (hkid : left ≠ Tree.null ∨ right ≠ Tree.null)
    (hin : con.stdin = c :: rest) (hnl : c ≠ '\n') (hnul : c ≠ NUL) :
    explore_body name left right con =
      choose c (Tree.node name left right) left right (afterRead name left right con) := by
  have hin1 : (beforeRead name left right con).stdin = c :: rest := by
    rw [beforeRead_stdin, hin]
  obtain ⟨tl, htl⟩ := read_line_first_char 14 (beforeRead name left right con) c rest hin1 hnl hnul
  rw [explore_body_of_child name left right con hkid, ← afterRead_eq, htl]

/-- C5: a manual build whose first name prompt is answered with an empty line returns
    NULL after that one read; `explore` on a NULL root returns at once, for any fuel,
    with the empty exit, no pass of the loop, no read, and the empty-tree message as
    its only output; and the whole program on the lines `s` and the empty line ends
    that way, having read only the mode answer and the name. -/
theorem empty_first_name_gives_empty_mansion (fuel depth : Nat) (rest : List Char)
    (tr : List Event) (con : Console) :
    build_manual_subtree (fuel + 1) depth ⟨'\n' :: rest, tr⟩ =
      some (Tree.null, ⟨rest, tr ++ [Event.out namePrompt, Event.read ['\n']]⟩) ∧
    (∀ n : Nat, explore n Tree.null con =
      some ⟨Exit.empty, Tree.null, [],
        ⟨con.stdin, con.trace ++ [Event.out emptyTreeMessage]⟩⟩) ∧
    readsOf (con.trace ++ [Event.out emptyTreeMessage]) = readsOf con.trace ∧
    (∃ run : Run,
      main (fuel + 1) (Console.start ('s' :: '\n' :: '\n' :: rest)) = some (Tree.null, run) ∧
      run.exit = Exit.empty ∧ run.visited = [] ∧ run.con.stdin = rest ∧
      readsOf run.con.trace = 2 ∧
      run.con.trace.getLast? = some (Event.out emptyTreeMessage)) := by
  have hbuild : ∀ (d : Nat) (r : List Char) (t : List Event),
      build_manual_subtree (fuel + 1) d ⟨'\n' :: r, t⟩ =
        some (Tree.null, ⟨r, t ++ [Event.out namePrompt, Event.read ['\n']]⟩) := by
    intro d r t
    simp [build_manual_subtree, Console.printf, MAX_NAME, namePrompt, read_line, fgets,
      fgetsChars, cstr, strip_newline, NUL]
  refine ⟨hbuild depth rest tr, ?_, ?_, ?_⟩
  · intro n
    simp [explore, Console.printf, emptyTreeMessage]
  · simp [readsOf_append, readsOf]
  · have hmode : read_line 8 (((Console.start ('s' :: '\n' :: '\n' :: rest)).printf
        "Construtor de mansão (árvore binária de cômodos)\n".toList).printf
        "Deseja construir a árvore manualmente? (s/n) [n = árvore de exemplo]: ".toList) =
        (['s'], ⟨'\n' :: rest,
          [Event.out "Construtor de mansão (árvore binária de cômodos)\n".toList,
           Event.out
            "Deseja construir a árvore manualmente? (s/n) [n = árvore de exemplo]: ".toList,
           Event.read ['s', '\n']]⟩) := by
      simp [read_line, fgets, fgetsChars, cstr, strip_newline, NUL, Console.printf,
        Console.start]
    simp only [main, hmode, isYes]
    simp only [beq_self_eq_true, Bool.true_or, if_true, Console.printf]
    rw [hbuild]
    simp [explore, Console.printf, emptyTreeMessage, readsOf]

/-- C6: at a node with a child, when the pending input starts with `q` or `Q`, the
    pass reads that one answer, prints the quit message and stops with the quit exit;
    the loop ends there with the current node unchanged and as the only node visited,
    and exactly one read has been made. -/
theorem quit_ends_exploration (name : Option (List Char)) (left right : Tree)
    (con : Console) (c : Char) (rest : List Char) (fuel : Nat)
    (hkid : left ≠ Tree.null ∨ right ≠ Tree.null)
    (hin : con.stdin = c :: rest) (hc : c = 'q' ∨ c = 'Q') :
    explore_body name left right con =
      Step.stop Exit.quit ((afterRead name left right con).printf quitMessage) ∧
    explore_loop (fuel + 1) (Tree.node name left right) con =
      some ⟨Exit.quit, Tree.node name left right, [Tree.node name left right],
        (afterRead name left right con).printf quitMessage⟩ ∧
    ((afterRead name left right con).printf quitMessage).trace =
      con.trace ++ shownAt name left right ++
        [Event.read (fgetsChars 15 con.stdin).1, Event.out quitMessage] ∧
    ((afterRead name left right con).printf quitMessage).stdin = (fgetsChars 15 con.stdin).2 ∧
    readsOf ((afterRead name left right con).printf quitMessage).trace =
      readsOf con.trace + 1 := by
  have hlow : c.toLower = 'q' := by
    rcases hc with h | h <;> subst h <;> decide
  have hnl : c ≠ '\n' := by
    rcases hc with h | h <;> subst h <;> decide
  have hnul : c ≠ NUL := by
    rcases hc with h | h <;> subst h <;> decide
  have hbody : explore_body name left right con =
      Step.stop Exit.quit ((afterRead name left right con).printf quitMessage) := by
    rw [explore_body_choice name left right con c rest hkid hin hnl hnul]
    simp [choose, hlow, quitMessage]
  refine ⟨hbody, explore_loop_stop fuel name left right con _ _ hbody, ?_, rfl, ?_⟩
  · simp [afterRead, Console.printf, shownAt, beforeRead_trace name left right con]
  · have h := afterRead_reads name left right con
    simp only [Console.printf, readsOf_append, h]
    simp [readsOf]

/-- Concrete check of the quit case: in room `A`, on the line `Q`, the loop ends with
    the quit exit in room `A`. -/
theorem quit_ends_exploration_witness :
    (leafNode "B" ≠ Tree.null ∨ Tree.null ≠ Tree.null) ∧
    explore_loop 1 roomA (Console.start "Q\n".toList) =
      some ⟨Exit.quit, roomA, [roomA],
        (afterRead (some "A".toList) (leafNode "B") Tree.null
          (Console.start "Q\n".toList)).printf quitMessage⟩ :=
  ⟨Or.inl (by simp [leafNode]),
    (quit_ends_exploration (some "A".toList) (leafNode "B") Tree.null
      (Console.start "Q\n".toList) 'Q' ['\n'] 0 (Or.inl (by simp [leafNode])) rfl
      (Or.inr rfl)).2.1⟩

/-- C7: at a node with a child, when the pending input starts with a character that
    is neither a newline nor NUL (the line is not empty) and whose lower case is none
    of `l`, `r`, `q`, the pass reads one answer, prints the invalid-option message and
    goes on at the same node; the next pass prints the same room line, options line
    and prompt as this one did. -/
theorem invalid_choice_keeps_position (name : Option (List Char)) (left right : Tree)
    (con : Console) (c : Char) (rest : List Char) (fuel : Nat)
    (hkid : left ≠ Tree.null ∨ right ≠ Tree.null)
    (hin : con.stdin = c :: rest) (hnl : c ≠ '\n') (hnul : c ≠ NUL)
    (hl : c.toLower ≠ 'l') (hr : c.toLower ≠ 'r') (hq : c.toLower ≠ 'q') :
    explore_body name left right con =
      Step.next (Tree.node name left right)
        ((afterRead name left right con).printf invalidMessage) ∧
    explore_loop (fuel + 1) (Tree.node name left right) con =
      thenLoop fuel (Tree.node name left right) (Tree.node name left right)
        ((afterRead name left right con).printf invalidMessage) ∧
    ((afterRead name left right con).printf invalidMessage).trace =
      con.trace ++ shownAt name left right ++
        [Event.read (fgetsChars 15 con.stdin).1, Event.out invalidMessage] ∧
    (beforeRead name left right ((afterRead name left right con).printf invalidMessage)).trace =
      ((afterRead name left right con).printf invalidMessage).trace ++
        shownAt name left right := by
  have hbody : explore_body name left right con =
      Step.next (Tree.node name left right)
        ((afterRead name left right con).printf invalidMessage) := by
    rw [explore_body_choice name left right con c rest hkid hin hnl hnul]
    simp [choose, hl, hr, hq, invalidMessage]
  refine ⟨hbody, explore_loop_next fuel name left right _ con _ hbody, ?_, ?_⟩
  · simp [afterRead, Console.printf, shownAt, beforeRead_trace name left right con]
  · exact beforeRead_trace name left right _

/-- Concrete check of the invalid-option case: in room `A`, on the line `x`, the pass
    goes on in room `A`. -/
theorem invalid_choice_keeps_position_witness :
    (leafNode "B" ≠ Tree.null ∨ Tree.null ≠ Tree.null) ∧
    explore_body (some "A".toList) (leafNode "B") Tree.null (Console.start "x\n".toList) =
      Step.next roomA
        ((afterRead (some "A".toList) (leafNode "B") Tree.null
          (Console.start "x\n".toList)).printf invalidMessage) :=
  ⟨Or.inl (by simp [leafNode]),
    (invalid_choice_keeps_position (some "A".toList) (leafNode "B") Tree.null
      (Console.start "x\n".toList) 'x' ['\n'] 0 (Or.inl (by simp [leafNode])) rfl
      (by decide) (by decide) (by decide) (by decide) (by decide)).1⟩

/-- C8: at a node with a child, when the pending input starts with `l`: if there is
    a left child the next pass is made at the left child and nothing more is printed;
    if there is none the pass prints the no-path-left message and goes on at the same
    node.  When it starts with `r` the same holds with the right child and the
    no-path-right message. -/
theorem move_to_child_or_stay (name : Option (List Char)) (left right : Tree)
    (con : Console) (rest : List Char) (fuel : Nat)
    (hkid : left ≠ Tree.null ∨ right ≠ Tree.null) :
    (con.stdin = 'l' :: rest → left ≠ Tree.null →
      explore_body name left right con = Step.next left (afterRead name left right con) ∧
      explore_loop (fuel + 1) (Tree.node name left right) con =
        thenLoop fuel (Tree.node name left right) left (afterRead name left right con)) ∧
    (con.stdin = 'l' :: rest → left = Tree.null →
      explore_body name left right con =
        Step.next (Tree.node name left right)
          ((afterRead name left right con).printf noLeftMessage)) ∧
    (con.stdin = 'r' :: rest → right ≠ Tree.null →
      explore_body name left right con = Step.next right (afterRead name left right con) ∧
      explore_loop (fuel + 1) (Tree.node name left right) con =
        thenLoop fuel (Tree.node name left right) right (afterRead name left right con)) ∧
    (con.stdin = 'r' :: rest → right = Tree.null →
      explore_body name left right con =
        Step.next (Tree.node name left right)
          ((afterRead name left right con).printf noRightMessage)) := by
  have hL : con.stdin = 'l' :: rest → explore_body name left right con =
      choose 'l' (Tree.node name left right) left right (afterRead name left right con) :=
    fun hin => explore_body_choice name left right con 'l' rest hkid hin (by decide) (by decide)
  have hR : con.stdin = 'r' :: rest → explore_body name left right con =
      choose 'r' (Tree.node name left right) left right (afterRead name left right con) :=
    fun hin => explore_body_choice name left right con 'r' rest hkid hin (by decide) (by decide)
  have hlq : ¬ ('l' : Char).toLower = 'q' := by decide
  have hll : ('l' : Char).toLower = 'l' := by decide
  have hrq : ¬ ('r' : Char).toLower = 'q' := by decide
  have hrl : ¬ ('r' : Char).toLower = 'l' := by decide
  have hrr : ('r' : Char).toLower = 'r' := by decide
  refine ⟨?_, ?_, ?_, ?_⟩
  · intro hin hne
    have hb : explore_body name left right con =
        Step.next left (afterRead name left right con) := by
      rw [hL hin, choose, if_neg hlq, if_pos hll]
      have : left.isNull = false := by
        cases left
        · exact absurd rfl hne
        · rfl
      simp [this]
    exact ⟨hb, explore_loop_next fuel name left right _ con _ hb⟩
  · intro hin he
    rw [hL hin, choose, if_neg hlq, if_pos hll]
    subst he
    simp [Tree.isNull, noLeftMessage]
  · intro hin hne
    have hb : explore_body name left right con =
        Step.next right (afterRead name left right con) := by
      rw [hR hin, choose, if_neg hrq, if_neg hrl, if_pos hrr]
      have : right.isNull = false := by
        cases right
        · exact absurd rfl hne
        · rfl
      simp [this]
    exact ⟨hb, explore_loop_next fuel name left right _ con _ hb⟩
  · intro hin he
    rw [hR hin, choose, if_neg hrq, if_neg hrl, if_pos hrr]
    subst he
    simp [Tree.isNull, noRightMessage]

/-- Concrete check of the two moves: in room `A`, the line `l` leads to room `B` and
    the line `r` leaves the explorer in room `A`. -/
theorem move_to_child_or_stay_witness :
    (leafNode "B" ≠ Tree.null ∨ Tree.null ≠ Tree.null) ∧
    explore_body (some "A".toList) (leafNode "B") Tree.null (Console.start "l\n".toList) =
      Step.next (leafNode "B")
        (afterRead (some "A".toList) (leafNode "B") Tree.null (Console.start "l\n".toList)) ∧
    explore_body (some "A".toList) (leafNode "B") Tree.null (Console.start "r\n".toList) =
      Step.next roomA
        ((afterRead (some "A".toList) (leafNode "B") Tree.null
          (Console.start "r\n".toList)).printf noRightMessage) :=
  ⟨Or.inl (by simp [leafNode]),
    ((move_to_child_or_stay (some "A".toList) (leafNode "B") Tree.null
      (Console.start "l\n".toList) ['\n'] 0 (Or.inl (by simp [leafNode]))).1 rfl
      (by simp [leafNode])).1,
    (move_to_child_or_stay (some "A".toList) (leafNode "B") Tree.null
      (Console.start "r\n".toList) ['\n'] 0 (Or.inl (by simp [leafNode]))).2.2.2 rfl rfl⟩

/-- C9: at a node with a child, when the pending input starts with an empty line, the
    pass consumes that line, prints the empty-input message and goes on at the same
    node without stopping; the next pass prints the same room line, options line and
    prompt as this one did. -/
theorem empty_line_reprompts (name : Option (List Char)) (left right : Tree)
    (con : Console) (rest : List Char) (fuel : Nat)
    (hkid : left ≠ Tree.null ∨ right ≠ Tree.null)
    (hin : con.stdin = '\n' :: rest) :
    explore_body name left right con =
      Step.next (Tree.node name left right)
        ((afterRead name left right con).printf emptyInputMessage) ∧
    explore_loop (fuel + 1) (Tree.node name left right) con =
      thenLoop fuel (Tree.node name left right) (Tree.node name left right)
        ((afterRead name left right con).printf emptyInputMessage) ∧
    ((afterRead name left right con).printf emptyInputMessage).stdin = rest ∧
    ((afterRead name left right con).printf emptyInputMessage).trace =
      con.trace ++ shownAt name left right ++
        [Event.read ['\n'], Event.out emptyInputMessage] ∧
    (beforeRead name left right
        ((afterRead name left right con).printf emptyInputMessage)).trace =
      ((afterRead name left right con).printf emptyInputMessage).trace ++
        shownAt name left right := by
  have hin1 : (beforeRead name left right con).stdin = '\n' :: rest := by
    rw [beforeRead_stdin, hin]
  have hread := read_line_empty_line 14 (beforeRead name left right con) rest hin1
  have hbody : explore_body name left right con =
      Step.next (Tree.node name left right)
        ((afterRead name left right con).printf emptyInputMessage) := by
    rw [explore_body_of_child name left right con hkid, ← afterRead_eq, hread]
  refine ⟨hbody, explore_loop_next fuel name left right _ con _ hbody, ?_, ?_, ?_⟩
  · simp [afterRead, Console.printf, hin, fgetsChars]
  · simp [afterRead, Console.printf, shownAt, beforeRead_trace name left right con, hin,
      fgetsChars]
  · exact beforeRead_trace name left right _

/-- Concrete check of the empty answer: in room `A`, on an empty line followed by the
    line `l`, the pass goes on in room `A` and the line `l` is still pending. -/
theorem empty_line_reprompts_witness :
    (leafNode "B" ≠ Tree.null ∨ Tree.null ≠ Tree.null) ∧
    explore_body (some "A".toList) (leafNode "B") Tree.null (Console.start "\nl\n".toList) =
      Step.next roomA
        ((afterRead (some "A".toList) (leafNode "B") Tree.null
          (Console.start "\nl\n".toList)).printf emptyInputMessage) ∧
    ((afterRead (some "A".toList) (leafNode "B") Tree.null
      (Console.start "\nl\n".toList)).printf emptyInputMessage).stdin = "l\n".toList :=
  ⟨Or.inl (by simp [leafNode]),
    (empty_line_reprompts (some "A".toList) (leafNode "B") Tree.null
      (Console.start "\nl\n".toList) "l\n".toList 0 (Or.inl (by simp [leafNode])) rfl).1,
    (empty_line_reprompts (some "A".toList) (leafNode "B") Tree.null
      (Console.start "\nl\n".toList) "l\n".toList 0 (Or.inl (by simp [leafNode])) rfl).2.2.1⟩

/-! ## The manual build -/

/-- An answer is yes exactly when it is not empty and starts with `s` or `S`. -/
theorem isYes_iff (buf : List Char) :
    isYes buf = true ↔ ∃ c tl, buf = c :: tl ∧ (c = 's' ∨ c = 'S') := by
  cases buf with
  | nil => simp [isYes]
  | cons c tl => simp [isYes]

/-- The source's builder and the stated procedure agree, whatever the depth argument. -/
theorem build_manual_subtree_eq_procedure (fuel : Nat) :
    ∀ (depth : Nat) (con : Console),
      build_manual_subtree fuel depth con = manualProcedure fuel con := by
  induction fuel with
  | zero =>
    intro depth con
    rfl
  | succ n ih =>
    intro depth con
    simp only [build_manual_subtree, manualProcedure, askChild, leftQuestion, rightQuestion,
      namePrompt, ih]
    cases hname : (read_line MAX_NAME (con.printf
      "Digite o nome do cômodo (ou ENTER para nenhum nó nesta posição): ".toList)).1 with
    | nil => simp
    | cons c cs => simp

/-- C11: `build_manual_subtree` is the stated recursive procedure: for every fuel,
    depth and console it returns what `manualProcedure` returns (no node on an empty
    name; otherwise a node with that name, whose left child is built by recursion if
    and only if the first answer is yes, and whose right child is built, after the
    whole left subtree, if and only if the second answer is yes; a child that is not
    built is NULL), an answer being yes exactly when it starts with `s` or `S`. -/
theorem build_manual_follows_procedure :
    (∀ (fuel depth : Nat) (con : Console),
      build_manual_subtree fuel depth con = manualProcedure fuel con) ∧
    (∀ buf : List Char,
      isYes buf = true ↔ ∃ c tl, buf = c :: tl ∧ (c = 's' ∨ c = 'S')) :=
  ⟨fun fuel => build_manual_subtree_eq_procedure fuel, isYes_iff⟩

/-! ## What a pass of the loop displays -/

/-- The dispatch on an answer prints at most one message. -/
theorem choose_trace (c : Char) (cur left right : Tree) (con : Console) :
    ∃ more, (choose c cur left right con).console.trace = con.trace ++ more := by
  unfold choose
  split_ifs
  · exact ⟨[_], rfl⟩
  · exact ⟨[_], rfl⟩
  · exact ⟨[], (List.append_nil _).symm⟩
  · exact ⟨[_], rfl⟩
  · exact ⟨[], (List.append_nil _).symm⟩
  · exact ⟨[_], rfl⟩

/-- What a pass displays before it reads: the room line, the options line and the
    prompt. -/
theorem shownAt_eq (name : Option (List Char)) (left right : Tree) :
    shownAt name left right =
      Event.out (roomLine name) ::
        ((printOptions left right ⟨[], []⟩).trace ++ [Event.out choicePrompt]) := by
  cases left <;> cases right <;>
    simp [shownAt, beforeRead, printOptions, Console.printf, Tree.isNull, choicePrompt]

/-- At a node with a child the trace of a pass starts with the display and the read. -/
theorem explore_body_shows (name : Option (List Char)) (left right : Tree) (con : Console)
    (hkid : left ≠ Tree.null ∨ right ≠ Tree.null) :
    ∃ more, (explore_body name left right con).console.trace =
      con.trace ++ shownAt name left right ++
        Event.read (fgetsChars 15 con.stdin).1 :: more := by
  rw [explore_body_of_child name left right con hkid, afterRead_eq]
  have hafter : (afterRead name left right con).trace =
      con.trace ++ shownAt name left right ++ [Event.read (fgetsChars 15 con.stdin).1] := by
    simp [afterRead, shownAt, beforeRead_trace name left right con]
  split
  · exact ⟨[Event.out emptyInputMessage], by
      simp [Step.console, Console.printf, hafter]⟩
  · rename_i c tl _
    obtain ⟨more, hmore⟩ := choose_trace c (Tree.node name left right) left right
      (afterRead name left right con)
    exact ⟨more, by rw [hmore, hafter]; simp⟩

/-- Whatever the node, the first thing a pass prints is the room line. -/
theorem explore_body_room_line (name : Option (List Char)) (left right : Tree)
    (con : Console) :
    ∃ more, (explore_body name left right con).console.trace =
      con.trace ++ Event.out (roomLine name) :: more := by
  by_cases hkid : left ≠ Tree.null ∨ right ≠ Tree.null
  · obtain ⟨more, hmore⟩ := explore_body_shows name left right con hkid
    refine ⟨(printOptions left right ⟨[], []⟩).trace ++ [Event.out choicePrompt] ++
      Event.read (fgetsChars 15 con.stdin).1 :: more, ?_⟩
    rw [hmore, shownAt_eq]
    simp
  · have hl : left = Tree.null := by
      by_contra hne
      exact hkid (Or.inl hne)
    have hr : right = Tree.null := by
      by_contra hne
      exact hkid (Or.inr hne)
    subst hl
    subst hr
    exact ⟨[Event.out leafMessage], by
      simp [explore_body_leaf, Step.console, Console.printf]⟩

/-- C12, as the code has it: whatever the node, the first thing a pass prints is the
    room line; it shows the name whenever the name pointer is not NULL, also when the
    name is the empty string, and the placeholder only when the name pointer is
    NULL. -/
theorem room_line_shows_name_or_placeholder (name : Option (List Char))
    (left right : Tree) (con : Console) :
    (∃ more, (explore_body name left right con).console.trace =
      con.trace ++ Event.out (roomLine name) :: more) ∧
    (∀ s : List Char, roomLine (some s) = "Você está em: ".toList ++ s ++ "\n".toList) ∧
    roomLine none = "Você está em: ".toList ++ placeholder ++ "\n".toList :=
  ⟨explore_body_room_line name left right con, fun _ => rfl, rfl⟩

/-- C12, the case in which the claim fails: at a node whose name is the empty string
    the room line is `Você está em: ` with nothing after it, not the placeholder. -/
theorem empty_name_is_not_replaced :
    explore_body (some []) Tree.null Tree.null (Console.start []) =
      Step.stop Exit.leaf
        ⟨[], [Event.out "Você está em: \n".toList, Event.out leafMessage]⟩ ∧
    roomLine (some []) ≠ "Você está em: ".toList ++ placeholder ++ "\n".toList := by
  constructor
  · simp [explore_body, Tree.isNull, Console.printf, Console.start, roomName, leafMessage]
  · decide

/-- C14: the options line starts with its header and ends with the quit entry; between
    them it has the entry of the left move, followed by the name of the left child,
    exactly when there is a left child, and then the entry of the right move, followed
    by the name of the right child, exactly when there is a right child.  At a node with
    a child a pass prints this line between the room line and the prompt, before it
    reads. -/
theorem options_line_lists_existing_moves (name ln rn : Option (List Char))
    (ll lr rl rr left right : Tree) (con : Console) :
    (printOptions (Tree.node ln ll lr) (Tree.node rn rl rr) con).trace =
      con.trace ++ [Event.out optionsHeader, Event.out (leftEntry ++ showStr ln),
        Event.out (rightEntry ++ showStr rn), Event.out quitEntry] ∧
    (printOptions (Tree.node ln ll lr) Tree.null con).trace =
      con.trace ++ [Event.out optionsHeader, Event.out (leftEntry ++ showStr ln),
        Event.out quitEntry] ∧
    (printOptions Tree.null (Tree.node rn rl rr) con).trace =
      con.trace ++ [Event.out optionsHeader, Event.out (rightEntry ++ showStr rn),
        Event.out quitEntry] ∧
    (∀ s : List Char, showStr (some s) = s) ∧
    (left ≠ Tree.null ∨ right ≠ Tree.null →
      ∃ more, (explore_body name left right con).console.trace =
        con.trace ++ Event.out (roomLine name) ::
          ((printOptions left right ⟨[], []⟩).trace ++
            Event.out choicePrompt :: Event.read (fgetsChars 15 con.stdin).1 :: more)) := by
  refine ⟨?_, ?_, ?_, fun _ => rfl, ?_⟩
  · simp [printOptions, Console.printf, Tree.isNull, Tree.name, optionsHeader, leftEntry,
      rightEntry, quitEntry]
  · simp [printOptions, Console.printf, Tree.isNull, Tree.name, optionsHeader, leftEntry,
      quitEntry]
  · simp [printOptions, Console.printf, Tree.isNull, Tree.name, optionsHeader, rightEntry,
      quitEntry]
  · intro hkid
    obtain ⟨more, hmore⟩ := explore_body_shows name left right con hkid
    refine ⟨more, ?_⟩
    rw [hmore, shownAt_eq]
    simp

/-! ## How much of the input one read takes -/

/-- A line that fits the buffer, newline included, is taken whole. -/
theorem fgetsChars_line (line rest : List Char) (hline : '\n' ∉ line) :
    ∀ n : Nat, line.length ≤ n →
      fgetsChars (n + 1) (line ++ '\n' :: rest) = (line ++ ['\n'], rest) := by
  induction line with
  | nil =>
    intro n _
    simp [fgetsChars]
  | cons c cs ih =>
    intro n hn
    have hc : c ≠ '\n' := fun h => hline (by simp [h])
    have hcs : '\n' ∉ cs := fun h => hline (List.mem_cons_of_mem _ h)
    cases n with
    | zero => simp at hn
    | succ m =>
      have hm : cs.length ≤ m := by simpa using hn
      simp [fgetsChars, hc, ih hcs m hm]

/-- Of a text without newline that does not fit the room, only the part that fits is
    taken; the rest stays on standard input. -/
theorem fgetsChars_long (n : Nat) :
    ∀ (line more : List Char), '\n' ∉ line → n ≤ line.length →
      fgetsChars n (line ++ more) = (line.take n, line.drop n ++ more) := by
  induction n with
  | zero =>
    intro line more _ _
    simp [fgetsChars]
  | succ m ih =>
    intro line more hline hn
    cases line with
    | nil => simp at hn
    | cons c cs =>
      have hc : c ≠ '\n' := fun h => hline (by simp [h])
      have hcs : '\n' ∉ cs := fun h => hline (List.mem_cons_of_mem _ h)
      have hm : m ≤ cs.length := by simpa using hn
      simp [fgetsChars, hc, ih cs more hcs hm]

/-- The dispatch on an answer reads nothing. -/
theorem choose_console (c : Char) (cur left right : Tree) (con : Console) :
    (choose c cur left right con).console.stdin = con.stdin ∧
    readsOf (choose c cur left right con).console.trace = readsOf con.trace := by
  unfold choose
  split_ifs <;> simp [Step.console, Console.printf, readsOf_append, readsOf]

/-- At a node with a child a pass makes exactly one read, the one `afterRead`
    describes. -/
theorem explore_body_one_read (name : Option (List Char)) (left right : Tree)
    (con : Console) (hkid : left ≠ Tree.null ∨ right ≠ Tree.null) :
    (explore_body name left right con).console.stdin = (fgetsChars 15 con.stdin).2 ∧
    readsOf (explore_body name left right con).console.trace = readsOf con.trace + 1 := by
  rw [explore_body_of_child name left right con hkid, afterRead_eq]
  split
  · simp [Step.console, Console.printf, readsOf_append, readsOf, afterRead, beforeRead_reads]
  · rename_i c tl _
    obtain ⟨hs, hr⟩ := choose_console c (Tree.node name left right) left right
      (afterRead name left right con)
    rw [hs, hr, afterRead_reads]
    exact ⟨rfl, rfl⟩

/-- C13, as the code has it: at a node with a child a pass makes exactly one read into
    a buffer of 16 characters.  The read takes the pending line whole, newline
    included, when the line has at most 14 characters; of a longer line it takes the
    first 15 characters and leaves the others pending.  The decision is taken from the
    first character read. -/
theorem one_read_of_at_most_fifteen_chars (name : Option (List Char)) (left right : Tree)
    (con : Console) (hkid : left ≠ Tree.null ∨ right ≠ Tree.null) :
    readsOf (explore_body name left right con).console.trace = readsOf con.trace + 1 ∧
    (explore_body name left right con).console.stdin = (fgetsChars 15 con.stdin).2 ∧
    (∀ line rest : List Char, '\n' ∉ line → line.length ≤ 14 →
      con.stdin = line ++ '\n' :: rest →
        fgetsChars 15 con.stdin = (line ++ ['\n'], rest)) ∧
    (∀ line rest : List Char, '\n' ∉ line → 15 ≤ line.length →
      con.stdin = line ++ '\n' :: rest →
        fgetsChars 15 con.stdin = (line.take 15, line.drop 15 ++ '\n' :: rest)) ∧
    (∀ (c : Char) (rest : List Char), con.stdin = c :: rest → c ≠ '\n' → c ≠ NUL →
      explore_body name left right con =
        choose c (Tree.node name left right) left right (afterRead name left right con)) := by
  refine ⟨(explore_body_one_read name left right con hkid).2,
    (explore_body_one_read name left right con hkid).1, ?_, ?_, ?_⟩
  · intro line rest hline hlen hin
    rw [hin]
    exact fgetsChars_line line rest hline 14 hlen
  · intro line rest hline hlen hin
    rw [hin]
    exact fgetsChars_long 15 line ('\n' :: rest) hline hlen
  · intro c rest hin hnl hnul
    exact explore_body_choice name left right con c rest hkid hin hnl hnul

/-- Concrete check of the reads in room `A`: the line `l` is taken whole by one read,
    which leaves the next line pending. -/
theorem one_read_of_at_most_fifteen_chars_witness :
    (leafNode "B" ≠ Tree.null ∨ Tree.null ≠ Tree.null) ∧
    readsOf (explore_body (some "A".toList) (leafNode "B") Tree.null
      (Console.start "l\nq\n".toList)).console.trace = 1 ∧
    (explore_body (some "A".toList) (leafNode "B") Tree.null
      (Console.start "l\nq\n".toList)).console.stdin = "q\n".toList :=
  ⟨Or.inl (by simp [leafNode]),
    (one_read_of_at_most_fifteen_chars (some "A".toList) (leafNode "B") Tree.null
      (Console.start "l\nq\n".toList) (Or.inl (by simp [leafNode]))).1,
    (one_read_of_at_most_fifteen_chars (some "A".toList) (leafNode "B") Tree.null
      (Console.start "l\nq\n".toList) (Or.inl (by simp [leafNode]))).2.1⟩

/-- C13, the case in which the claim fails: in room `A` the single input line made of
    fifteen `x` and one `l` is read in two parts.  The first read takes the fifteen `x`
    and is answered with the invalid-option message; the second read takes the `l`
    that was left of the same line as a new choice, and the explorer moves to
    room `B`. -/
theorem long_line_is_read_as_two_choices :
    ∃ run : Run,
      explore_loop 3 roomA (Console.start "xxxxxxxxxxxxxxxl\n".toList) = some run ∧
      run.exit = Exit.leaf ∧
      run.final = leafNode "B" ∧
      run.visited = [roomA, roomA, leafNode "B"] ∧
      readsOf run.con.trace = 2 ∧
      Event.read "xxxxxxxxxxxxxxx".toList ∈ run.con.trace ∧
      Event.out invalidMessage ∈ run.con.trace ∧
      Event.read "l\n".toList ∈ run.con.trace ∧
      run.con.stdin = [] := by
  simp [explore_loop, roomA, leafNode, Console.start, explore_body, Tree.isNull, read_line,
    printOptions, Console.printf, fgets, fgetsChars, cstr, strip_newline, NUL, choose,
    Tree.name, showStr, roomName, invalidMessage, readsOf]

/-! ## The startup question -/

/-- Whether the line read is a yes can be told from the first pending character. -/
theorem isYes_read_line (n : Nat) (con : Console) :
    isYes (read_line (n + 2) con).1 = isYes con.stdin := by
  cases hin : con.stdin with
  | nil => simp [read_line, fgets, hin, isYes]
  | cons c rest =>
    by_cases hnl : c = '\n'
    · subst hnl
      rw [read_line_empty_line n con rest hin]
      simp [isYes]
    · by_cases hnul : c = NUL
      · subst hnul
        have hb : (NUL != NUL) = false := by simp
        simp [read_line, fgets, hin, fgetsChars_cons n NUL rest hnl, cstr, List.takeWhile, hb,
          strip_newline, isYes]
        decide
      · obtain ⟨tl, htl⟩ := read_line_first_char n con c rest hin hnl hnul
        rw [htl]
        rfl

/-- C15: `main` builds manually if and only if the pending input starts with `s` or
    `S`, that is, if its first line is not empty and begins with one of them; in that
    case it goes on with the manual build.  On any other input, the empty line and the
    end of input included, it explores the tree `build_sample_tree` returns, which is
    also the root it reports. -/
theorem startup_mode_selection (fuel : Nat) (con : Console) :
    (isYes con.stdin = true ↔ ∃ c rest, con.stdin = c :: rest ∧ (c = 's' ∨ c = 'S')) ∧
    (isYes con.stdin = true → main fuel con = manualMode fuel (modeRead con).2) ∧
    (isYes con.stdin = false → main fuel con = sampleMode fuel (modeRead con).2) ∧
    isYes [] = false ∧
    (∀ rest : List Char, isYes ('\n' :: rest) = false) := by
  have hmode : isYes (modeRead con).1 = isYes con.stdin := by
    unfold modeRead
    rw [isYes_read_line 6]
    rfl
  refine ⟨isYes_iff con.stdin, ?_, ?_, rfl, fun _ => rfl⟩
  · intro h
    rw [← hmode] at h
    unfold modeRead at h
    simp only [main, manualMode, modeRead, manualModeMessage, h, if_true]
  · intro h
    rw [← hmode] at h
    unfold modeRead at h
    simp only [main, sampleMode, modeRead, sampleModeMessage, h]
    simp

/-! ## The end of the input -/

/-- At the end of the input a pass at a node with a child reads an empty answer and
    goes on at the same node, still at the end of the input. -/
theorem explore_body_at_end (name : Option (List Char)) (left right : Tree)
    (tr : List Event) (hkid : left ≠ Tree.null ∨ right ≠ Tree.null) :
    explore_body name left right ⟨[], tr⟩ =
      Step.next (Tree.node name left right)
        ⟨[], tr ++ shownAt name left right ++
          [Event.read [], Event.out emptyInputMessage]⟩ := by
  have hstdin : (beforeRead name left right ⟨[], tr⟩).stdin = [] :=
    beforeRead_stdin name left right ⟨[], tr⟩
  have hread : (read_line 16 (beforeRead name left right ⟨[], tr⟩)).1 = [] := by
    simp [read_line, fgets, hstdin]
  rw [explore_body_of_child name left right ⟨[], tr⟩ hkid, afterRead_eq, hread]
  simp [afterRead, Console.printf, fgetsChars, shownAt,
    beforeRead_trace name left right ⟨[], tr⟩]

/-- At the end of the input the loop at a node with a child uses up any fuel. -/
theorem explore_loop_at_end (name : Option (List Char)) (left right : Tree)
    (hkid : left ≠ Tree.null ∨ right ≠ Tree.null) (fuel : Nat) :
    ∀ tr : List Event, explore_loop fuel (Tree.node name left right) ⟨[], tr⟩ = none := by
  induction fuel with
  | zero =>
    intro tr
    rfl
  | succ n ih =>
    intro tr
    rw [explore_loop_next n name left right _ _ _ (explore_body_at_end name left right tr hkid)]
    simp [thenLoop, ih]

/-- A read splits the pending input into what it takes and what it leaves. -/
theorem fgetsChars_length (n : Nat) :
    ∀ inp : List Char,
      (fgetsChars n inp).1.length + (fgetsChars n inp).2.length = inp.length := by
  induction n with
  | zero =>
    intro inp
    simp [fgetsChars]
  | succ m ih =>
    intro inp
    cases inp with
    | nil => simp [fgetsChars]
    | cons c rest =>
      by_cases hc : c = '\n'
      · simp [fgetsChars, hc]
        omega
      · have := ih rest
        simp [fgetsChars, hc]
        omega

/-- A read at a point where input is pending takes at least one character. -/
theorem fgetsChars_takes (n : Nat) (c : Char) (rest : List Char) :
    (fgetsChars (n + 1) (c :: rest)).2.length < (c :: rest).length := by
  have hlen := fgetsChars_length (n + 1) (c :: rest)
  have hgot : 0 < (fgetsChars (n + 1) (c :: rest)).1.length := by
    by_cases hc : c = '\n'
    · simp [fgetsChars, hc]
    · simp [fgetsChars, hc]
  omega

/-- A run of the loop that has not ended after one pass more than there are pending
    characters never ends. -/
theorem explore_loop_never (fuel : Nat) :
    ∀ (root : Tree) (con : Console), con.stdin.length < fuel →
      explore_loop fuel root con = none → ∀ m : Nat, explore_loop m root con = none := by
  induction fuel with
  | zero =>
    intro root con h
    simp at h
  | succ n ih =>
    intro root con hlen hnone m
    cases root with
    | null => simp [explore_loop] at hnone
    | node name left right =>
      cases hb : explore_body name left right con with
      | stop how con1 =>
        rw [explore_loop_stop n name left right con con1 how hb] at hnone
        cases hnone
      | next cur1 con1 =>
        have hkid := (explore_body_next name left right cur1 con con1 hb).1
        cases hin : con.stdin with
        | nil =>
          have hcon : con = ⟨[], con.trace⟩ := by
            cases con
            simp_all
          rw [hcon]
          exact explore_loop_at_end name left right hkid m con.trace
        | cons c rest =>
          have hstdin : con1.stdin = (fgetsChars 15 con.stdin).2 := by
            have h := (explore_body_one_read name left right con hkid).1
            rw [hb] at h
            exact h
          have hless : con1.stdin.length < n := by
            have h : (fgetsChars 15 (c :: rest)).2.length < (c :: rest).length :=
              fgetsChars_takes 14 c rest
            rw [hstdin, hin]
            rw [hin] at hlen
            simp only [List.length_cons] at hlen h ⊢
            omega
          rw [explore_loop_next n name left right cur1 con con1 hb] at hnone
          have hnone1 : explore_loop n cur1 con1 = none := by
            unfold thenLoop at hnone
            split at hnone
            · assumption
            · cases hnone
          cases m with
          | zero => rfl
          | succ k =>
            rw [explore_loop_next k name left right cur1 con con1 hb]
            simp [thenLoop, ih cur1 con1 hless hnone1 k]

/-- C17: once the input has ended, a read yields the empty string; at a node with a
    child a pass then prints the empty-input message and goes on at the same node with
    the input still ended, so the loop, and `explore` with it, returns for no amount of
    fuel: it reaches neither the leaf exit nor the quit exit.  Hence, on any finite
    input, a run that has not ended after one pass more than there are pending
    characters never ends. -/
theorem end_of_input_never_terminates (name : Option (List Char)) (left right : Tree)
    (tr : List Event) (fuel : Nat) (hkid : left ≠ Tree.null ∨ right ≠ Tree.null) :
    read_line 16 ⟨[], tr⟩ = ([], ⟨[], tr ++ [Event.read []]⟩) ∧
    explore_body name left right ⟨[], tr⟩ =
      Step.next (Tree.node name left right)
        ⟨[], tr ++ shownAt name left right ++
          [Event.read [], Event.out emptyInputMessage]⟩ ∧
    explore_loop fuel (Tree.node name left right) ⟨[], tr⟩ = none ∧
    explore fuel (Tree.node name left right) ⟨[], tr⟩ = none ∧
    (∀ (root : Tree) (con : Console),
      explore_loop (con.stdin.length + 1) root con = none →
        ∀ m : Nat, explore_loop m root con = none) := by
  refine ⟨by simp [read_line, fgets], explore_body_at_end name left right tr hkid,
    explore_loop_at_end name left right hkid fuel tr, ?_, ?_⟩
  · simp [explore, Console.printf, explore_loop_at_end name left right hkid fuel]
  · intro root con h
    exact explore_loop_never (con.stdin.length + 1) root con (by omega) h

/-- Concrete check at the end of the input: in room `A`, with nothing to read, the
    loop has not returned after a thousand passes. -/
theorem end_of_input_never_terminates_witness :
    (leafNode "B" ≠ Tree.null ∨ Tree.null ≠ Tree.null) ∧
    explore_loop 1000 roomA (Console.start []) = none :=
  ⟨Or.inl (by simp [leafNode]),
    (end_of_input_never_terminates (some "A".toList) (leafNode "B") Tree.null [] 1000
      (Or.inl (by simp [leafNode]))).2.2.1⟩

/-! ## Typing a tree in and reading it back -/

theorem stdinOfLines_append (xs ys : List (List Char)) :
    stdinOfLines (xs ++ ys) = stdinOfLines xs ++ stdinOfLines ys := by
  induction xs with
  | nil => rfl
  | cons l ls ih => simp [stdinOfLines, ih]

/-- A line without newline and NUL that fits the buffer is read whole and as it is;
    what follows it stays pending. -/
theorem read_line_whole_line (n : Nat) (con : Console) (line rest : List Char)
    (hnl : '\n' ∉ line) (hnul : NUL ∉ line) (hlen : line.length ≤ n)
    (hin : con.stdin = line ++ '\n' :: rest) :
    read_line (n + 2) con =
      (line, ⟨rest, con.trace ++ [Event.read (line ++ ['\n'])]⟩) := by
  have hget : fgets (n + 2) con.stdin = some (line ++ ['\n'], rest) := by
    rw [hin]
    cases hl : line ++ '\n' :: rest with
    | nil => simp at hl
    | cons a as =>
      simp only [fgets]
      rw [← hl]
      exact congrArg some (fgetsChars_line line rest hnl n hlen)
  have hcstr : cstr (line ++ ['\n']) = line ++ ['\n'] := by
    unfold cstr
    rw [List.takeWhile_eq_self_iff]
    intro c hc
    rcases List.mem_append.mp hc with h | h
    · have : c ≠ NUL := fun he => hnul (he ▸ h)
      simpa using this
    · have hc' : c = '\n' := by simpa using h
      subst hc'
      decide
  have hstrip : strip_newline (line ++ ['\n']) = line := by
    simp [strip_newline]
  simp only [read_line, hget, hcstr, hstrip]

/-- The answer `n` leaves the child absent. -/
theorem askChild_no (build : Console → Option (Tree × Console)) (question : List Char)
    (rest : List Char) (tr : List Event) :
    askChild build question ⟨'n' :: '\n' :: rest, tr⟩ =
      some (Tree.null, ⟨rest, tr ++ [Event.out question, Event.read ['n', '\n']]⟩) := by
  have hr := read_line_whole_line 126 (Console.printf ⟨'n' :: '\n' :: rest, tr⟩ question)
    ['n'] rest (by decide) (by decide) (by decide) rfl
  simp only [askChild, MAX_NAME, hr]
  simp [isYes, Console.printf]

/-- The answer `s` hands over to the builder. -/
theorem askChild_yes (build : Console → Option (Tree × Console)) (question : List Char)
    (rest : List Char) (tr : List Event) :
    askChild build question ⟨'s' :: '\n' :: rest, tr⟩ =
      build ⟨rest, tr ++ [Event.out question, Event.read ['s', '\n']]⟩ := by
  have hr := read_line_whole_line 126 (Console.printf ⟨'s' :: '\n' :: rest, tr⟩ question)
    ['s'] rest (by decide) (by decide) (by decide) rfl
  simp only [askChild, MAX_NAME, hr]
  simp [isYes, Console.printf]

/-- The stated procedure reads the encoding of a tree back. -/
theorem manualProcedure_encodeLines (t : Tree) :
    t.allNames typableName → t ≠ Tree.null →
    ∀ (fuel : Nat) (rest : List Char) (tr : List Event), t.height ≤ fuel →
      ∃ tr1, manualProcedure fuel ⟨stdinOfLines (encodeLines t) ++ rest, tr⟩ =
          some (t, ⟨rest, tr1⟩) ∧
        readsOf tr1 = readsOf tr + (encodeLines t).length := by
  induction t with
  | null =>
    intro _ h
    exact absurd rfl h
  | node name left right ihl ihr =>
    intro hnames _ fuel rest tr hfuel
    obtain ⟨hname, hleft, hright⟩ := hnames
    cases name with
    | none => exact absurd hname (by simp [typableName])
    | some s =>
      obtain ⟨hne, hnl, hnul, hlen⟩ := hname
      cases fuel with
      | zero => simp [Tree.height] at hfuel
      | succ n =>
        have hhl : left.height ≤ n := by
          simp only [Tree.height] at hfuel
          omega
        have hhr : right.height ≤ n := by
          simp only [Tree.height] at hfuel
          omega
        have hchild : ∀ (c : Tree), c.allNames typableName → c.height ≤ n →
            (c.allNames typableName → c ≠ Tree.null →
              ∀ (fuel : Nat) (rest : List Char) (tr : List Event), c.height ≤ fuel →
                ∃ tr1, manualProcedure fuel ⟨stdinOfLines (encodeLines c) ++ rest, tr⟩ =
                    some (c, ⟨rest, tr1⟩) ∧
                  readsOf tr1 = readsOf tr + (encodeLines c).length) →
            ∀ (question rest : List Char) (tr : List Event),
              ∃ tr1, askChild (fun k => manualProcedure n k) question
                  ⟨stdinOfLines (childLines c (encodeLines c)) ++ rest, tr⟩ =
                    some (c, ⟨rest, tr1⟩) ∧
                readsOf tr1 = readsOf tr + (childLines c (encodeLines c)).length := by
          intro c hc hh ih question rest tr
          cases c with
          | null =>
            refine ⟨tr ++ [Event.out question, Event.read ['n', '\n']], ?_, ?_⟩
            · simp only [childLines, Tree.isNull, if_true, stdinOfLines, List.cons_append,
                List.nil_append]
              exact askChild_no _ question rest tr
            · simp [childLines, Tree.isNull, readsOf_append, readsOf]
          | node cn cl cr =>
            obtain ⟨tr1, h1, h2⟩ := ih hc (by simp) n rest
              (tr ++ [Event.out question, Event.read ['s', '\n']]) hh
            refine ⟨tr1, ?_, ?_⟩
            · simp only [childLines, Tree.isNull, stdinOfLines, List.cons_append,
                List.nil_append, Bool.false_eq_true, if_false]
              rw [askChild_yes]
              exact h1
            · rw [h2]
              simp [childLines, Tree.isNull, readsOf_append, readsOf]
              omega
        have hread := read_line_whole_line 126
          (Console.printf ⟨stdinOfLines (encodeLines (Tree.node (some s) left right)) ++ rest,
            tr⟩ namePrompt) s
          (stdinOfLines (childLines left (encodeLines left)) ++
            (stdinOfLines (childLines right (encodeLines right)) ++ rest))
          hnl hnul hlen (by
            simp [Console.printf, encodeLines, roomName, stdinOfLines, stdinOfLines_append])
        obtain ⟨trl, hl1, hl2⟩ := hchild left hleft hhl ihl (leftQuestion s)
          (stdinOfLines (childLines right (encodeLines right)) ++ rest)
          ((Console.printf ⟨stdinOfLines (encodeLines (Tree.node (some s) left right)) ++ rest,
            tr⟩ namePrompt).trace ++ [Event.read (s ++ ['\n'])])
        obtain ⟨trr, hr1, hr2⟩ := hchild right hright hhr ihr (rightQuestion s) rest trl
        refine ⟨trr, ?_, ?_⟩
        · cases s with
          | nil => exact absurd rfl hne
          | cons c cs =>
            simp only [manualProcedure, MAX_NAME, hread, hl1, hr1]
        · rw [hr2, hl2]
          simp [encodeLines, Console.printf, readsOf_append, readsOf]
          omega

/-- C16: take a tree with a root whose names are all present, without NUL, not empty,
    without newline and of at most 126 characters, and type its pre-order encoding
    (`encodeLines`) in, followed by any further input.  With fuel for the height of the
    tree, `build_manual_subtree` returns that very tree, makes one read for each line
    of the encoding, and leaves the further input pending. -/
theorem manual_build_round_trip (name : Option (List Char)) (left right : Tree)
    (fuel depth : Nat) (rest : List Char) (tr : List Event)
    (hnames : (Tree.node name left right).allNames typableName)
    (hfuel : (Tree.node name left right).height ≤ fuel) :
    ∃ tr1,
      build_manual_subtree fuel depth
          ⟨stdinOfLines (encodeLines (Tree.node name left right)) ++ rest, tr⟩ =
        some (Tree.node name left right, ⟨rest, tr1⟩) ∧
      readsOf tr1 = readsOf tr + (encodeLines (Tree.node name left right)).length := by
  rw [build_manual_subtree_eq_procedure]
  exact manualProcedure_encodeLines (Tree.node name left right) hnames (by simp) fuel rest tr
    hfuel

/-- Concrete check of the round trip: the six lines that encode the tree of room `A`,
    followed by one more character, are read back as that tree with fuel 2, and the
    further character stays pending. -/
theorem manual_build_round_trip_witness :
    (roomA.allNames typableName ∧ roomA.height ≤ 2) ∧
    encodeLines roomA =
      ["A".toList, "s".toList, "B".toList, "n".toList, "n".toList, "n".toList] ∧
    ∃ tr1,
      build_manual_subtree 2 0
          ⟨stdinOfLines (encodeLines (Tree.node (some "A".toList) (leafNode "B") Tree.null)) ++
            ['x'], []⟩ =
        some (Tree.node (some "A".toList) (leafNode "B") Tree.null, ⟨['x'], tr1⟩) ∧
      readsOf tr1 = readsOf [] +
        (encodeLines (Tree.node (some "A".toList) (leafNode "B") Tree.null)).length :=
  have hnames : (Tree.node (some "A".toList) (leafNode "B") Tree.null).allNames typableName := by
    simp [leafNode, Tree.allNames, typableName]
    decide
  have hfuel : (Tree.node (some "A".toList) (leafNode "B") Tree.null).height ≤ 2 := by
    simp [leafNode, Tree.height]
  ⟨⟨hnames, hfuel⟩, by simp [roomA, leafNode, encodeLines, childLines, Tree.isNull, roomName],
    manual_build_round_trip (some "A".toList) (leafNode "B") Tree.null 2 0 ['x'] []
      hnames hfuel⟩

/-! ## Termination of the manual build -/

/-- The string a read returns comes from the characters the read took. -/
theorem read_line_string (n : Nat) (con : Console) :
    (read_line (n + 2) con).1 = strip_newline (cstr (fgetsChars (n + 1) con.stdin).1) := by
  cases hin : con.stdin with
  | nil => simp [read_line, fgets, hin, fgetsChars, cstr, strip_newline]
  | cons c rest => simp [read_line, fgets, hin]

/-- A read never adds to the pending input, and a read that returns a string that is
    not empty has taken at least one character. -/
theorem read_line_pending (n : Nat) (con : Console) :
    (read_line (n + 2) con).2.stdin.length ≤ con.stdin.length ∧
    ((read_line (n + 2) con).1 ≠ [] →
      (read_line (n + 2) con).2.stdin.length < con.stdin.length) := by
  have hlen := fgetsChars_length (n + 1) con.stdin
  rw [read_line_console, read_line_string]
  refine ⟨by simp only; omega, ?_⟩
  intro hne
  have hgot : (fgetsChars (n + 1) con.stdin).1 ≠ [] := by
    intro h
    rw [h] at hne
    simp [cstr, strip_newline] at hne
  have : 0 < (fgetsChars (n + 1) con.stdin).1.length := List.length_pos.mpr hgot
  simp only
  omega

theorem read_line_reads (n : Nat) (con : Console) :
    readsOf (read_line (n + 2) con).2.trace = readsOf con.trace + 1 := by
  rw [read_line_console]
  simp [readsOf_append, readsOf]

/-- With fuel for the pending input the stated procedure returns; it has then made at
    least one read and has added nothing to the pending input. -/
theorem manualProcedure_terminates (fuel : Nat) :
    ∀ con : Console, con.stdin.length < fuel →
      ∃ t con1, manualProcedure fuel con = some (t, con1) ∧
        con1.stdin.length ≤ con.stdin.length ∧
        readsOf con.trace + 1 ≤ readsOf con1.trace := by
  induction fuel with
  | zero =>
    intro con h
    simp at h
  | succ n ih =>
    intro con hfuel
    have hask : ∀ (question : List Char) (k : Console), k.stdin.length < n →
        ∃ t k1, askChild (fun k => manualProcedure n k) question k = some (t, k1) ∧
          k1.stdin.length ≤ k.stdin.length ∧ readsOf k.trace + 1 ≤ readsOf k1.trace := by
      intro question k hk
      have hp : (read_line MAX_NAME (k.printf question)).2.stdin.length ≤ k.stdin.length :=
        (read_line_pending 126 (k.printf question)).1
      have hr : readsOf (read_line MAX_NAME (k.printf question)).2.trace =
          readsOf k.trace + 1 := by
        have h := read_line_reads 126 (k.printf question)
        simpa [Console.printf, readsOf_append, readsOf] using h
      unfold askChild
      split
      · obtain ⟨t, k1, h1, h2, h3⟩ :=
          ih (read_line MAX_NAME (k.printf question)).2 (by omega)
        exact ⟨t, k1, h1, by omega, by omega⟩
      · exact ⟨Tree.null, _, rfl, by omega, by omega⟩
    have hp : (read_line MAX_NAME (con.printf namePrompt)).2.stdin.length ≤
        con.stdin.length := (read_line_pending 126 (con.printf namePrompt)).1
    have hp2 : (read_line MAX_NAME (con.printf namePrompt)).1 ≠ [] →
        (read_line MAX_NAME (con.printf namePrompt)).2.stdin.length < con.stdin.length :=
      (read_line_pending 126 (con.printf namePrompt)).2
    have hr : readsOf (read_line MAX_NAME (con.printf namePrompt)).2.trace =
        readsOf con.trace + 1 := by
      have h := read_line_reads 126 (con.printf namePrompt)
      simpa [Console.printf, readsOf_append, readsOf] using h
    simp only [manualProcedure]
    cases hname : (read_line MAX_NAME (con.printf namePrompt)).1 with
    | nil => exact ⟨Tree.null, _, rfl, by omega, by omega⟩
    | cons c cs =>
      have hlt := hp2 (by simp [hname])
      obtain ⟨l, k1, hl1, hl2, hl3⟩ := hask (leftQuestion (c :: cs))
        (read_line MAX_NAME (con.printf namePrompt)).2 (by omega)
      obtain ⟨r, k2, hr1, hr2, hr3⟩ := hask (rightQuestion (c :: cs)) k1 (by omega)
      refine ⟨Tree.node (some (c :: cs)) l r, k2, ?_, by omega, by omega⟩
      simp only [hl1, hr1]

/-! ## The lines of the input and the size of the tree built -/

theorem splitLines_line (line rest : List Char) (hline : '\n' ∉ line) :
    splitLines (line ++ '\n' :: rest) = line :: splitLines rest := by
  induction line with
  | nil => simp [splitLines]
  | cons c cs ih =>
    have hc : c ≠ '\n' := fun h => hline (by simp [h])
    have hcs : '\n' ∉ cs := fun h => hline (List.mem_cons_of_mem _ h)
    simp [splitLines, hc, ih hcs]

theorem splitLines_last (line : List Char) (hline : '\n' ∉ line) :
    splitLines line = [line] := by
  induction line with
  | nil => simp [splitLines]
  | cons c cs ih =>
    have hc : c ≠ '\n' := fun h => hline (by simp [h])
    have hcs : '\n' ∉ cs := fun h => hline (List.mem_cons_of_mem _ h)
    simp [splitLines, hc, ih hcs]

/-- A text has no newline, or it starts with a line that a newline ends. -/
theorem first_line (inp : List Char) :
    '\n' ∉ inp ∨ ∃ line rest, '\n' ∉ line ∧ inp = line ++ '\n' :: rest := by
  induction inp with
  | nil => exact Or.inl (by simp)
  | cons c cs ih =>
    by_cases hc : c = '\n'
    · exact Or.inr ⟨[], cs, by simp, by simp [hc]⟩
    · rcases ih with h | ⟨line, rest, hline, hcs⟩
      · left
        intro hmem
        rcases List.mem_cons.mp hmem with h1 | h1
        · exact hc h1.symm
        · exact h h1
      · right
        refine ⟨c :: line, rest, ?_, by simp [hcs]⟩
        intro hmem
        rcases List.mem_cons.mp hmem with h1 | h1
        · exact hc h1.symm
        · exact hline h1

/-- A text without newline that fits the room is taken whole. -/
theorem fgetsChars_all (inp : List Char) (hinp : '\n' ∉ inp) :
    ∀ n : Nat, inp.length ≤ n → fgetsChars n inp = (inp, []) := by
  induction inp with
  | nil =>
    intro n _
    cases n <;> simp [fgetsChars]
  | cons c cs ih =>
    intro n hn
    have hc : c ≠ '\n' := fun h => hinp (by simp [h])
    have hcs : '\n' ∉ cs := fun h => hinp (List.mem_cons_of_mem _ h)
    cases n with
    | zero => simp at hn
    | succ m =>
      have hm : cs.length ≤ m := by simpa using hn
      simp [fgetsChars, hc, ih hcs m hm]

/-- When no line is too long for the buffer, a read takes one line: the lines left
    are short as well, and if the string read is not empty a non-empty line has gone. -/
theorem read_line_short (con : Console) (hshort : shortLines con.stdin) :
    shortLines (read_line MAX_NAME con).2.stdin ∧
    (nonBlankLines (read_line MAX_NAME con).2.stdin).length +
        (if (read_line MAX_NAME con).1 = [] then 0 else 1) ≤
      (nonBlankLines con.stdin).length := by
  have hcon : (read_line MAX_NAME con).2.stdin = (fgetsChars 127 con.stdin).2 := by
    have h := read_line_console 126 con
    exact congrArg Console.stdin h
  have hstr : (read_line MAX_NAME con).1 =
      strip_newline (cstr (fgetsChars 127 con.stdin).1) := read_line_string 126 con
  rw [hcon, hstr]
  rcases first_line con.stdin with hno | ⟨line, rest, hline, hin⟩
  · have hlen : con.stdin.length ≤ 126 :=
      hshort con.stdin (by simp [splitLines_last con.stdin hno])
    rw [fgetsChars_all con.stdin hno 127 (by omega)]
    refine ⟨by simp [shortLines, splitLines], ?_⟩
    by_cases hemp : con.stdin = []
    · simp [hemp, cstr, strip_newline, nonBlankLines, splitLines]
    · have hone : (nonBlankLines con.stdin).length = 1 := by
        simp [nonBlankLines, splitLines_last con.stdin hno, hemp]
      have hzero : (nonBlankLines ([] : List Char)).length = 0 := by
        simp [nonBlankLines, splitLines]
      rw [hone, hzero]
      split <;> omega
  · have hlen : line.length ≤ 126 :=
      hshort line (by simp [hin, splitLines_line line rest hline])
    have hget : fgetsChars 127 con.stdin = (line ++ ['\n'], rest) := by
      rw [hin]
      exact fgetsChars_line line rest hline 126 hlen
    rw [hget]
    refine ⟨?_, ?_⟩
    · intro l hl
      exact hshort l (by simp [hin, splitLines_line line rest hline, hl])
    · by_cases hemp : line = []
      · subst hemp
        have hs : strip_newline (cstr ['\n']) = [] := by
          simp [cstr, strip_newline, List.takeWhile, NUL]
        simp [hs, hin, nonBlankLines, splitLines]
      · have hsplit : (nonBlankLines con.stdin).length =
            (nonBlankLines rest).length + 1 := by
          simp [nonBlankLines, hin, splitLines_line line rest hline, hemp]
        rw [hsplit]
        simp only
        split <;> omega

/-- When no line is too long for the buffer, every node the stated procedure builds
    has used up a non-empty line of the input. -/
theorem manualProcedure_size (fuel : Nat) :
    ∀ (con : Console) (t : Tree) (con1 : Console), shortLines con.stdin →
      manualProcedure fuel con = some (t, con1) →
        shortLines con1.stdin ∧
        t.size + (nonBlankLines con1.stdin).length ≤ (nonBlankLines con.stdin).length := by
  induction fuel with
  | zero =>
    intro con t con1 _ h
    simp [manualProcedure] at h
  | succ n ih =>
    intro con t con1 hshort h
    have hask : ∀ (question : List Char) (k : Console) (c : Tree) (k1 : Console),
        shortLines k.stdin →
        askChild (fun k => manualProcedure n k) question k = some (c, k1) →
          shortLines k1.stdin ∧
          c.size + (nonBlankLines k1.stdin).length ≤ (nonBlankLines k.stdin).length := by
      intro question k c k1 hk hc
      obtain ⟨hs, hn⟩ := read_line_short (k.printf question) hk
      have hn' : (nonBlankLines (read_line MAX_NAME (k.printf question)).2.stdin).length ≤
          (nonBlankLines k.stdin).length := by
        have : (k.printf question).stdin = k.stdin := rfl
        rw [this] at hn
        omega
      unfold askChild at hc
      split at hc
      · obtain ⟨h1, h2⟩ := ih _ c k1 hs hc
        exact ⟨h1, by omega⟩
      · cases hc
        exact ⟨hs, by simp only [Tree.size]; omega⟩
    obtain ⟨hs, hn⟩ := read_line_short (con.printf namePrompt) hshort
    have hcs : (con.printf namePrompt).stdin = con.stdin := rfl
    rw [hcs] at hn
    simp only [manualProcedure] at h
    split at h
    · cases h
      exact ⟨hs, by simp only [Tree.size]; omega⟩
    · rename_i c cs hname
      rw [hname] at hn
      simp only [reduceCtorEq, if_false] at hn
      split at h
      · cases h
      · rename_i left afterLeft hleft
        split at h
        · cases h
        · rename_i right afterRight hright
          cases h
          obtain ⟨hl1, hl2⟩ := hask _ _ _ _ hs hleft
          obtain ⟨hr1, hr2⟩ := hask _ _ _ _ hl1 hright
          exact ⟨hr1, by simp only [Tree.size]; omega⟩

/-- C18, as the code has it: on every finite input `build_manual_subtree` returns as
    soon as the fuel exceeds the number of pending characters; it has then made at
    least one read and has added nothing to the pending input.  When no line of the
    input has more than 126 characters, the tree returned has no more nodes than the
    input has non-empty lines. -/
theorem manual_build_terminates (fuel depth : Nat) (con : Console)
    (hfuel : con.stdin.length < fuel) :
    ∃ t con1,
      build_manual_subtree fuel depth con = some (t, con1) ∧
      con1.stdin.length ≤ con.stdin.length ∧
      readsOf con.trace + 1 ≤ readsOf con1.trace ∧
      (shortLines con.stdin → t.size ≤ (nonBlankLines con.stdin).length) := by
  obtain ⟨t, con1, h1, h2, h3⟩ := manualProcedure_terminates fuel con hfuel
  refine ⟨t, con1, ?_, h2, h3, ?_⟩
  · rw [build_manual_subtree_eq_procedure]
    exact h1
  · intro hshort
    have := (manualProcedure_size fuel con t con1 hshort h1).2
    omega

/-- Concrete check of the termination: on the three lines `A`, `s`, `B`, six
    characters in all, the build returns with fuel 7. -/
theorem manual_build_terminates_witness :
    (Console.start "A\ns\nB\n".toList).stdin.length < 7 ∧
    ∃ t con1,
      build_manual_subtree 7 0 (Console.start "A\ns\nB\n".toList) = some (t, con1) ∧
      con1.stdin.length ≤ (Console.start "A\ns\nB\n".toList).stdin.length ∧
      readsOf (Console.start "A\ns\nB\n".toList).trace + 1 ≤ readsOf con1.trace ∧
      (shortLines (Console.start "A\ns\nB\n".toList).stdin →
        t.size ≤ (nonBlankLines (Console.start "A\ns\nB\n".toList).stdin).length) :=
  ⟨by decide, manual_build_terminates 7 0 (Console.start "A\ns\nB\n".toList) (by decide)⟩

/-- C18, the case in which the claim fails: the input `longLine` is one non-empty line
    of 255 characters.  The read of the name takes its first 127 characters, the read
    of the answer the next 127, which start with `s`, and the nested call reads the
    rest as a second name: the tree built has two nodes. -/
theorem long_line_builds_two_nodes :
    (build_manual_subtree 2 0 (Console.start longLine)).map (fun r => (r.1, r.2.stdin)) =
      some (Tree.node (some (List.replicate 127 'a')) (leafNode "b") Tree.null, []) ∧
    (Tree.node (some (List.replicate 127 'a')) (leafNode "b") Tree.null).size = 2 ∧
    (nonBlankLines longLine).length = 1 := by
  set_option maxRecDepth 1000000 in
  decide

/-! ## The path of the explorer -/

theorem followReads_append (xs ys : List Event) :
    ∀ cur : Tree, followReads cur (xs ++ ys) = followReads (followReads cur xs) ys := by
  induction xs with
  | nil =>
    intro cur
    rfl
  | cons e es ih =>
    intro cur
    cases e with
    | out t => simpa [followReads] using ih cur
    | read t => simpa [followReads] using ih _

theorem followReads_of_no_read (ev : List Event) (h : readsOf ev = 0) (cur : Tree) :
    followReads cur ev = cur := by
  induction ev with
  | nil => rfl
  | cons e es ih =>
    cases e with
    | out t => exact ih (by simpa [readsOf] using h)
    | read t =>
      simp only [readsOf] at h
      omega

/-- The dispatch on an answer leads where `moveOn` says. -/
theorem choose_node (c : Char) (tl : List Char) (name : Option (List Char))
    (left right : Tree) (con : Console) :
    (choose c (Tree.node name left right) left right con).node (Tree.node name left right) =
      moveOn (Tree.node name left right) (c :: tl) := by
  unfold choose moveOn
  simp only [Tree.left, Tree.right]
  split_ifs with hq hl hln hl2 <;> first
    | rfl
    | (exfalso; rw [hq] at hl; revert hl; decide)
    | (exfalso; rw [hq] at hl2; revert hl2; decide)

/-- What a pass adds to the trace leads, read by read, to the node the pass ends at. -/
theorem explore_body_follow (name : Option (List Char)) (left right : Tree) (con : Console) :
    ∃ ev, (explore_body name left right con).console.trace = con.trace ++ ev ∧
      followReads (Tree.node name left right) ev =
        (explore_body name left right con).node (Tree.node name left right) := by
  by_cases hkid : left ≠ Tree.null ∨ right ≠ Tree.null
  · obtain ⟨more, hmore⟩ := explore_body_shows name left right con hkid
    have hreads := (explore_body_one_read name left right con hkid).2
    have hshown : readsOf (shownAt name left right) = 0 := by
      have h := beforeRead_reads name left right ⟨[], []⟩
      simpa [shownAt, readsOf] using h
    have hzero : readsOf more = 0 := by
      rw [hmore] at hreads
      simp only [readsOf_append, readsOf, hshown] at hreads
      omega
    refine ⟨shownAt name left right ++ Event.read (fgetsChars 15 con.stdin).1 :: more, ?_, ?_⟩
    · rw [hmore]
      simp
    · rw [followReads_append, followReads_of_no_read _ hshown]
      simp only [followReads]
      rw [followReads_of_no_read _ hzero]
      have hstr : (read_line 16 (beforeRead name left right con)).1 =
          strip_newline (cstr (fgetsChars 15 con.stdin).1) := by
        rw [read_line_string 14, beforeRead_stdin]
      rw [explore_body_of_child name left right con hkid, hstr]
      split
      · rename_i heq
        rw [heq]
        rfl
      · rename_i c tl heq
        rw [heq]
        exact (choose_node c tl name left right _).symm
  · have hl : left = Tree.null := by
      by_contra hne
      exact hkid (Or.inl hne)
    have hr : right = Tree.null := by
      by_contra hne
      exact hkid (Or.inr hne)
    subst hl
    subst hr
    refine ⟨[Event.out (roomLine name), Event.out leafMessage], ?_, ?_⟩
    · simp [explore_body_leaf, Step.console, Console.printf]
    · simp [explore_body_leaf, Step.node, followReads]

/-- The visits of a finished run of the loop: they start at the root and end at the
    final node, each visit is followed by one at the same node or at a child of it,
    and the final node is where the answers read lead from the root. -/
theorem explore_loop_path (fuel : Nat) :
    ∀ (root : Tree) (con : Console) (run : Run), root ≠ Tree.null →
      explore_loop fuel root con = some run →
        run.visited.head? = some root ∧
        run.visited.getLast? = some run.final ∧
        isWalk stayOrStep run.visited ∧
        ∃ ev, run.con.trace = con.trace ++ ev ∧ run.final = followReads root ev := by
  induction fuel with
  | zero =>
    intro root con run _ h
    simp [explore_loop] at h
  | succ n ih =>
    intro root con run hroot h
    cases root with
    | null => exact absurd rfl hroot
    | node name left right =>
      obtain ⟨ev0, hev0, hfol⟩ := explore_body_follow name left right con
      simp only [explore_loop] at h
      split at h
      · rename_i how con1 hb
        cases h
        rw [hb] at hev0 hfol
        refine ⟨rfl, rfl, ?_, ev0, hev0, hfol.symm⟩
        simp [isWalk]
      · rename_i cur1 con1 hb
        rw [hb] at hev0 hfol
        simp only [Step.console, Step.node] at hev0 hfol
        have hnext := (explore_body_next name left right cur1 con con1 hb).2
        have hcur1 : cur1 ≠ Tree.null := by
          rcases hnext with h1 | ⟨h1, h2⟩ | ⟨h1, h2⟩
          · rw [h1]
            simp
          · rw [h1]
            exact h2
          · rw [h1]
            exact h2
        have hstep : stayOrStep (Tree.node name left right) cur1 := by
          rcases hnext with h1 | ⟨h1, _⟩ | ⟨h1, _⟩
          · exact Or.inl h1
          · exact Or.inr ⟨hcur1, Or.inl h1⟩
          · exact Or.inr ⟨hcur1, Or.inr h1⟩
        split at h
        · cases h
        · rename_i run1 hrun1
          cases h
          obtain ⟨hhead, hlast, hwalk, ev1, hev1, hfin⟩ := ih cur1 con1 run1 hcur1 hrun1
          refine ⟨rfl, ?_, ?_, ev0 ++ ev1, ?_, ?_⟩
          · cases hv : run1.visited with
            | nil => simp [hv] at hhead
            | cons v vs =>
              simp only [List.getLast?_cons_cons]
              rw [← hv]
              exact hlast
          · refine ⟨?_, hwalk⟩
            intro b hb
            simp only [hhead, Option.mem_def, Option.some.injEq] at hb
            rw [← hb]
            exact hstep
          · simp only [hev1, hev0, List.append_assoc]
          · rw [followReads_append, hfol]
            exact hfin

theorem distinctNodes_head (visits : List Tree) :
    (distinctNodes visits).head? = visits.head? := by
  induction visits with
  | nil => rfl
  | cons a rest ih =>
    simp only [distinctNodes]
    split_ifs with h
    · rw [ih, h]
      rfl
    · rfl

theorem distinctNodes_getLast (visits : List Tree) :
    (distinctNodes visits).getLast? = visits.getLast? := by
  induction visits with
  | nil => rfl
  | cons a rest ih =>
    simp only [distinctNodes]
    split_ifs with h
    · rw [ih]
      cases rest with
      | nil => simp at h
      | cons b bs => simp
    · cases rest with
      | nil => simp [distinctNodes]
      | cons b bs =>
        have hne : distinctNodes (b :: bs) ≠ [] := by
          intro hnil
          have := distinctNodes_head (b :: bs)
          rw [hnil] at this
          simp at this
        obtain ⟨d, ds, hd⟩ := List.exists_cons_of_ne_nil hne
        rw [hd, List.getLast?_cons_cons, ← hd, ih]
        simp

/-- Leaving out the repeated visits of a walk leaves a walk from child to child. -/
theorem distinctNodes_walk (visits : List Tree) (h : isWalk stayOrStep visits) :
    isWalk childStep (distinctNodes visits) := by
  induction visits with
  | nil => simp [distinctNodes, isWalk]
  | cons a rest ih =>
    obtain ⟨hstep, hrest⟩ := h
    simp only [distinctNodes]
    split_ifs with heq
    · exact ih hrest
    · refine ⟨?_, ih hrest⟩
      intro b hb
      rw [distinctNodes_head] at hb
      rcases hstep b hb with hsame | hchild
      · exfalso
        apply heq
        rw [← hsame]
        exact hb
      · exact hchild

theorem height_pos (t : Tree) (h : t ≠ Tree.null) : 1 ≤ t.height := by
  cases t with
  | null => exact absurd rfl h
  | node n l r =>
    simp only [Tree.height]
    omega

theorem childStep_height (a b : Tree) (h : childStep a b) : b.height + 1 ≤ a.height := by
  obtain ⟨hb, hside⟩ := h
  cases a with
  | null =>
    rcases hside with h1 | h1 <;> exact absurd h1 hb
  | node n l r =>
    simp only [Tree.left, Tree.right] at hside
    simp only [Tree.height]
    rcases hside with h1 | h1 <;> rw [h1] <;> omega

/-- A walk from child to child that starts at the root has no more nodes than the
    tree is high. -/
theorem walk_height (path : List Tree) :
    ∀ root : Tree, root ≠ Tree.null → isWalk childStep path → path.head? = some root →
      path.length ≤ root.height := by
  induction path with
  | nil =>
    intro root _ _ _
    simp
  | cons a rest ih =>
    intro root hroot hwalk hhead
    obtain ⟨hstep, hrest⟩ := hwalk
    have ha : a = root := by simpa using hhead
    subst ha
    cases rest with
    | nil =>
      have := height_pos a hroot
      simpa using this
    | cons b bs =>
      have hchild : childStep a b := hstep b rfl
      have h1 := ih b hchild.1 hrest rfl
      have h2 := childStep_height a b hchild
      simp only [List.length_cons] at h1 ⊢
      omega

theorem hasNode_self (t : Tree) (h : t ≠ Tree.null) : t.hasNode t := by
  cases t with
  | null => exact absurd rfl h
  | node n l r => exact Or.inl rfl

theorem hasNode_of_step (a b t : Tree) (hstep : stayOrStep a b) (h : b.hasNode t) :
    a.hasNode t := by
  rcases hstep with hsame | ⟨hb, hside⟩
  · rw [← hsame]
    exact h
  · cases a with
    | null =>
      rcases hside with h1 | h1 <;> exact absurd h1 hb
    | node n l r =>
      simp only [Tree.left, Tree.right] at hside
      rcases hside with h1 | h1
      · exact Or.inr (Or.inl (h1 ▸ h))
      · exact Or.inr (Or.inr (h1 ▸ h))

/-- Every visit of a walk that starts at the root is at a node of the tree. -/
theorem walk_hasNode (visits : List Tree) :
    ∀ root : Tree, root ≠ Tree.null → isWalk stayOrStep visits →
      visits.head? = some root → ∀ t ∈ visits, root.hasNode t := by
  induction visits with
  | nil =>
    intro root _ _ _ t ht
    simp at ht
  | cons a rest ih =>
    intro root hroot hwalk hhead t ht
    obtain ⟨hstep, hrest⟩ := hwalk
    have ha : a = root := by simpa using hhead
    subst ha
    rcases List.mem_cons.mp ht with h1 | h1
    · rw [h1]
      exact hasNode_self a hroot
    · cases rest with
      | nil => simp at h1
      | cons b bs =>
        have hab : stayOrStep a b := hstep b rfl
        have hb : b ≠ Tree.null := by
          rcases hab with hsame | hchild
          · rw [hsame]
            exact hroot
          · exact hchild.1
        exact hasNode_of_step a b t hab (ih b hb hrest rfl t h1)

/-- C19: in every finished run of the loop from a root that is not NULL, the sequence
    of distinct nodes visited starts with the root and ends with the final node, and
    each of its nodes is followed by its left or right child; so every node visited,
    the final one included, is a node of the tree, the sequence has no more nodes than
    the tree is high (one more than the number of moves), and the final node is the one
    reached from the root by following, in order, the answers read: the left child on
    `l`, the right child on `r`, whenever that child exists. -/
theorem explore_path_invariant (fuel : Nat) (root : Tree) (con : Console) (run : Run)
    (hroot : root ≠ Tree.null) (hrun : explore_loop fuel root con = some run) :
    (distinctNodes run.visited).head? = some root ∧
    (distinctNodes run.visited).getLast? = some run.final ∧
    isWalk childStep (distinctNodes run.visited) ∧
    (∀ t ∈ run.visited, root.hasNode t) ∧
    root.hasNode run.final ∧
    (distinctNodes run.visited).length ≤ root.height ∧
    ∃ ev, run.con.trace = con.trace ++ ev ∧ run.final = followReads root ev := by
  obtain ⟨hhead, hlast, hwalk, hev⟩ := explore_loop_path fuel root con run hroot hrun
  have hdw := distinctNodes_walk run.visited hwalk
  have hdh : (distinctNodes run.visited).head? = some root := by
    rw [distinctNodes_head, hhead]
  have hnodes := walk_hasNode run.visited root hroot hwalk hhead
  refine ⟨hdh, ?_, hdw, hnodes, ?_, walk_height _ root hroot hdw hdh, hev⟩
  · rw [distinctNodes_getLast, hlast]
  · exact hnodes run.final (List.mem_of_mem_getLast? hlast)

/-- Concrete check of the path: in room `A`, on the lines `x` and `l`, the explorer
    stays once and then moves; the distinct nodes visited are room `A` and room `B`,
    and the final node is room `B`. -/
theorem explore_path_invariant_witness :
    roomA ≠ Tree.null ∧
    ∃ run : Run,
      explore_loop 3 roomA (Console.start "x\nl\n".toList) = some run ∧
      run.visited = [roomA, roomA, leafNode "B"] ∧
      distinctNodes run.visited = [roomA, leafNode "B"] ∧
      run.final = leafNode "B" ∧
      (distinctNodes run.visited).length ≤ roomA.height ∧
      isWalk childStep (distinctNodes run.visited) := by
  have hrun : explore_loop 3 roomA (Console.start "x\nl\n".toList) =
      some ⟨Exit.leaf, leafNode "B", [roomA, roomA, leafNode "B"],
        ((afterRead (some "A".toList) (leafNode "B") Tree.null
          ((afterRead (some "A".toList) (leafNode "B") Tree.null
            (Console.start "x\nl\n".toList)).printf invalidMessage)).printf
          (roomLine (some "B".toList))).printf leafMessage⟩ := by
    decide
  have hall := explore_path_invariant 3 roomA (Console.start "x\nl\n".toList) _
    (by decide) hrun
  exact ⟨by decide, _, hrun, rfl, by decide, rfl, hall.2.2.2.2.2.1, hall.2.2.1⟩

/-! ## The names of the rooms the program builds -/

theorem fgetsChars_room (n : Nat) :
    ∀ inp : List Char, (fgetsChars n inp).1.length ≤ n := by
  induction n with
  | zero =>
    intro inp
    simp [fgetsChars]
  | succ m ih =>
    intro inp
    cases inp with
    | nil => simp [fgetsChars]
    | cons c rest =>
      by_cases hc : c = '\n'
      · simp [fgetsChars, hc]
      · have := ih rest
        simp [fgetsChars, hc]
        omega

/-- A read into a buffer of `n + 2` characters returns at most `n + 1` of them. -/
theorem read_line_length (n : Nat) (con : Console) :
    (read_line (n + 2) con).1.length ≤ n + 1 := by
  rw [read_line_string]
  have h1 := fgetsChars_room (n + 1) con.stdin
  have h2 : (cstr (fgetsChars (n + 1) con.stdin).1).length ≤
      (fgetsChars (n + 1) con.stdin).1.length := (List.takeWhile_sublist _).length_le
  have h3 : (strip_newline (cstr (fgetsChars (n + 1) con.stdin).1)).length ≤
      (cstr (fgetsChars (n + 1) con.stdin).1).length := by
    unfold strip_newline
    split_ifs <;> simp
  omega

theorem build_sample_tree_names : build_sample_tree.allNames properName := by
  rw [build_sample_tree_eq]
  simp [Tree.allNames, leafNode, properName]

/-- Every node the stated procedure builds has a proper name. -/
theorem manualProcedure_names (fuel : Nat) :
    ∀ (con : Console) (t : Tree) (con1 : Console),
      manualProcedure fuel con = some (t, con1) → t.allNames properName := by
  induction fuel with
  | zero =>
    intro con t con1 h
    simp [manualProcedure] at h
  | succ n ih =>
    intro con t con1 h
    have hask : ∀ (question : List Char) (k : Console) (c : Tree) (k1 : Console),
        askChild (fun k => manualProcedure n k) question k = some (c, k1) →
          c.allNames properName := by
      intro question k c k1 hc
      unfold askChild at hc
      split at hc
      · exact ih _ c k1 hc
      · cases hc
        exact trivial
    have hlen : (read_line MAX_NAME (con.printf namePrompt)).1.length ≤ 127 :=
      read_line_length 126 (con.printf namePrompt)
    simp only [manualProcedure] at h
    split at h
    · cases h
      exact trivial
    · rename_i c cs hname
      rw [hname] at hlen
      split at h
      · cases h
      · rename_i left afterLeft hleft
        split at h
        · cases h
        · rename_i right afterRight hright
          cases h
          exact ⟨⟨by simp, hlen⟩, hask _ _ _ _ hleft, hask _ _ _ _ hright⟩

/-- A node of a tree whose names all have a property has a name with that property. -/
theorem allNames_hasNode (p : Option (List Char) → Prop) (root : Tree) :
    ∀ t : Tree, root.allNames p → root.hasNode t → t ≠ Tree.null ∧ p t.name := by
  induction root with
  | null =>
    intro t _ h
    exact absurd h (by simp [Tree.hasNode])
  | node n l r ihl ihr =>
    intro t hall hnode
    obtain ⟨hn, hl, hr⟩ := hall
    rcases hnode with h1 | h1 | h1
    · rw [h1]
      exact ⟨by simp, hn⟩
    · exact ihl t hl h1
    · exact ihr t hr h1

/-- The visits of a finished run of `explore` are at nodes of the tree explored. -/
theorem explore_visits (fuel : Nat) (root : Tree) (con : Console) (run : Run)
    (h : explore fuel root con = some run) :
    ∀ v ∈ run.visited, root.hasNode v := by
  cases root with
  | null =>
    simp only [explore] at h
    cases h
    intro v hv
    simp at hv
  | node n l r =>
    simp only [explore] at h
    split at h
    · cases h
    · rename_i run1 hrun1
      cases h
      exact walk_hasNode run1.visited (Tree.node n l r) (by simp)
        (explore_loop_path fuel _ _ run1 (by simp) hrun1).2.2.1
        (explore_loop_path fuel _ _ run1 (by simp) hrun1).1

/-- The tree `main` explores has proper names only. -/
theorem main_names (fuel : Nat) (con : Console) (root : Tree) (run : Run)
    (h : main fuel con = some (root, run)) :
    root.allNames properName ∧ ∀ v ∈ run.visited, root.hasNode v := by
  simp only [main] at h
  split at h
  · cases h
  · rename_i root1 con3 hbuilt
    split at h
    · cases h
    · rename_i run1 hrun1
      cases h
      refine ⟨?_, explore_visits fuel root con3 run hrun1⟩
      split at hbuilt
      · rw [build_manual_subtree_eq_procedure] at hbuilt
        exact manualProcedure_names fuel _ root con3 hbuilt
      · cases hbuilt
        exact build_sample_tree_names

/-- C20: every node of the tree `build_sample_tree` returns, of a tree
    `build_manual_subtree` returns on any input, and hence of the tree `main` explores,
    has a name that is present, not empty and of at most 127 characters; so at every
    node visited in a run of the program the name pointer is not NULL and the room line
    shows the name, not the placeholder. -/
theorem program_trees_have_proper_names (fuel depth : Nat) (con : Console) :
    build_sample_tree.allNames properName ∧
    (∀ (t : Tree) (con1 : Console),
      build_manual_subtree fuel depth con = some (t, con1) → t.allNames properName) ∧
    (∀ (root : Tree) (run : Run), main fuel con = some (root, run) →
      root.allNames properName ∧
      ∀ v ∈ run.visited, ∃ s : List Char,
        v.name = some s ∧ s ≠ [] ∧ s.length ≤ 127 ∧ roomName v.name = s) := by
  refine ⟨build_sample_tree_names, ?_, ?_⟩
  · intro t con1 h
    rw [build_manual_subtree_eq_procedure] at h
    exact manualProcedure_names fuel con t con1 h
  · intro root run h
    obtain ⟨hnames, hvis⟩ := main_names fuel con root run h
    refine ⟨hnames, ?_⟩
    intro v hv
    obtain ⟨_, hp⟩ := allNames_hasNode properName root v hnames (hvis v hv)
    cases hname : v.name with
    | none =>
      rw [hname] at hp
      exact absurd hp (by simp [properName])
    | some s =>
      rw [hname] at hp
      exact ⟨s, rfl, hp.1, hp.2, rfl⟩

end MansaoExplorer
